import Mathlib

/-!
Verification development for the group-search scan engine of the MX repository
(src/app/src/main/rust/src/search/engine/group_search.rs and manager.rs).

The Rust sources are shallowly embedded below: pure functions become Lean
functions, the chunked driver loop becomes a fold over chunk indices, u64 and
usize arithmetic is modelled with Nat (the source guards every subtraction that
matters, and the explicitly saturating subtractions coincide with truncated Nat
subtraction), and the memory reader becomes a pair of functions giving the byte
at every address and the read-success of every page.  Modules of the repository
that are not part of the available sources (search/types.rs, the wuwa page
bitmap, single_search.rs, result_manager.rs) are modelled from the
specification; every such definition carries a doc comment saying so.

Floating-point query values (FixedFloat) are outside the shallow embedding:
their tolerance comparison is genuine IEEE arithmetic.  The embedded value tree
therefore has the FixedInt / Range / Wildcard cases; all structural properties
proved here are about those.
-/

namespace MX

/-- Modelled from the spec (section 6): the page size is queried from sysconf
with a fallback of 4096; every supported target uses 4096-byte pages, so the
embedding fixes it. -/
def PAGE_SIZE : Nat := 4096

/-- Address of the page containing a, i.e. the Rust expression a & PAGE_MASK
with PAGE_MASK = the complement of (PAGE_SIZE - 1). -/
def pageFloor (a : Nat) : Nat := a / PAGE_SIZE * PAGE_SIZE

/-- Modelled from the spec (section 3): the six value types with their byte
sizes; search/types.rs is not among the available sources. -/
inductive ValueType where
  | byte
  | word
  | dword
  | qword
  | float
  | double
deriving DecidableEq, Repr

/-- Byte size of a value type (spec section 3: Byte 1, Word 2, Dword 4,
Qword 8, Float 4, Double 8). -/
def ValueType.size : ValueType → Nat
  | .byte => 1
  | .word => 2
  | .dword => 4
  | .qword => 8
  | .float => 4
  | .double => 8

/-- Little-endian decode of a byte list to a natural number. -/
def decodeLE : List Nat → Nat
  | [] => 0
  | b :: bs => b + 256 * decodeLE bs

/-- Two's-complement signed decode of a little-endian byte list. -/
def decodeSigned (bs : List Nat) : Int :=
  let u := decodeLE bs
  let m := 256 ^ bs.length
  if 2 * u < m then (u : Int) else (u : Int) - (m : Int)

/-- Modelled from the spec (section 3): the value descriptor cases the shallow
embedding covers.  FixedInt stores the 8-byte little-endian array of which the
first size bytes are the pattern; Range is an inclusive interval over the
(optionally signed) decoded value; Wildcard matches any value of the width.
FixedFloat is omitted: its epsilon comparison is floating point. -/
inductive SearchValue where
  | fixedInt (bytes : List Nat) (value_type : ValueType)
  | rangeValue (lo hi : Int) (value_type : ValueType) (signed : Bool)
  | wildcard (value_type : ValueType)
deriving DecidableEq, Repr

def SearchValue.value_type : SearchValue → ValueType
  | .fixedInt _ ty => ty
  | .rangeValue _ _ ty _ => ty
  | .wildcard ty => ty

/-- Modelled from the spec (section 3): matches returns true iff the slice has
the declared width and the decoded value satisfies the variant predicate.  The
scanners only call it on slices of exactly the declared width. -/
def SearchValue.matched (v : SearchValue) (bytes : List Nat) : Bool :=
  match v with
  | .fixedInt pat ty => decide (bytes = pat.take ty.size)
  | .rangeValue lo hi ty signed =>
      bytes.length == ty.size &&
        (let x : Int := if signed then decodeSigned bytes else (decodeLE bytes : Int)
         decide (lo ≤ x ∧ x ≤ hi))
  | .wildcard ty => bytes.length == ty.size

/-- Modelled from the spec (section 3): a search value is well formed when a
FixedInt carries the full 8-byte array (Rust type u8x8) of byte values. -/
def SearchValue.wf : SearchValue → Prop
  | .fixedInt pat _ => pat.length = 8 ∧ ∀ b ∈ pat, b < 256
  | .rangeValue _ _ _ _ => True
  | .wildcard _ => True

instance : DecidablePred SearchValue.wf := by
  intro v
  cases v <;> simp [SearchValue.wf] <;> infer_instance

/-- Modelled from the spec (section 3): search mode of a group query. -/
inductive SearchMode where
  | ordered
  | unordered
deriving DecidableEq, Repr

/-- Modelled from the spec (section 3): a query is the ordered value list, the
mode, and the byte window size (range). -/
structure SearchQuery where
  values : List SearchValue
  mode : SearchMode
  range : Nat
deriving DecidableEq, Repr

/-- Sum of the byte sizes of the query values (total_values_size in the
source). -/
def sizesSum (q : SearchQuery) : Nat :=
  (q.values.map (fun v => v.value_type.size)).sum

/-- Minimum of a list of naturals with the iterator convention of the source:
min().unwrap_or(1). -/
def minOr1 : List Nat → Nat
  | [] => 1
  | x :: xs => xs.foldl Nat.min x

/-- The min_element_size computed by search_region_group. -/
def minElementSize (q : SearchQuery) : Nat :=
  minOr1 (q.values.map (fun v => v.value_type.size))

/-- A query is well formed when all of its values are. -/
def SearchQuery.wf (q : SearchQuery) : Prop := ∀ v ∈ q.values, v.wf

/-- Slice buffer[o .. o+n] of a byte list. -/
def slice (buf : List Nat) (o n : Nat) : List Nat := (buf.drop o).take n

/-- The n bytes of memory starting at address a. -/
def memSlice (mem : Nat → Nat) (a n : Nat) : List Nat :=
  (List.range n).map (fun i => mem (a + i))

/-- Fuel-indexed body of the cursor loop of try_match_ordered: advance the
cursor in steps of the value size until the slice matches; fail when the
window is exhausted.  The fuel only bounds the recursion; matchFrom supplies
enough of it. -/
def matchFromAux (v : SearchValue) (buf : List Nat) : Nat → Nat → Option Nat
  | 0, _ => none
  | fuel + 1, c =>
      if c + v.value_type.size ≤ buf.length then
        if v.matched (slice buf c v.value_type.size) then some c
        else matchFromAux v buf fuel (c + v.value_type.size)
      else none

/-- First cursor position reachable from c in steps of the value size whose
slice matches v; none when the window is exhausted first.  This is the inner
while loop of try_match_ordered (group_search.rs lines 478-490). -/
def matchFrom (v : SearchValue) (buf : List Nat) (c : Nat) : Option Nat :=
  matchFromAux v buf (buf.length + 1) c

/-- The value-list recursion of try_match_ordered (group_search.rs lines
470-498): one shared cursor, advanced past each matched value. -/
def tmOrdered : List SearchValue → List Nat → Nat → Option (List Nat)
  | [], _, _ => some []
  | v :: vs, buf, c =>
      match matchFrom v buf c with
      | none => none
      | some o => (tmOrdered vs buf (o + v.value_type.size)).map (fun os => o :: os)

/-- try_match_ordered of group_search.rs. -/
def try_match_ordered (q : SearchQuery) (buf : List Nat) : Option (List Nat) :=
  tmOrdered q.values buf 0

/-- try_match_unordered of group_search.rs (lines 500-531): every value is
scanned independently from offset 0 at its own alignment; the match succeeds
iff every value is found. -/
def try_match_unordered (q : SearchQuery) (buf : List Nat) : Option (List Nat) :=
  let offs := q.values.map (fun v => matchFrom v buf 0)
  if offs.all Option.isSome then some (offs.map (fun o => o.getD 0)) else none

/-- try_match_group_at_address of group_search.rs (lines 463-468). -/
def try_match_group_at_address (q : SearchQuery) (buf : List Nat) : Option (List Nat) :=
  match q.mode with
  | .ordered => try_match_ordered q buf
  | .unordered => try_match_unordered q buf

/-- ValuePair of manager.rs (lines 24-52): an address and its value type. -/
structure ValuePair where
  addr : Nat
  value_type : ValueType
deriving DecidableEq, Repr

/-- The manual Ord instance of ValuePair (manager.rs lines 36-40): it compares
only the addresses. -/
def ValuePair.cmp (p q : ValuePair) : Ordering := compare p.addr q.addr

/-- The derived PartialEq of ValuePair (manager.rs line 24): both fields must
agree. -/
def ValuePair.beqDerived (p q : ValuePair) : Bool :=
  p.addr == q.addr && p.value_type == q.value_type

/-- Insert into an address-sorted list, in front of the first strictly larger
address. -/
def insertSorted : List ValuePair → ValuePair → List ValuePair
  | [], p => [p]
  | q :: qs, p => if p.addr < q.addr then p :: q :: qs else q :: insertSorted qs p

/-- Insertion into the B+ tree set of ValuePair ordered by ValuePair.cmp: an
element whose key (the address) is already present is not inserted again, so
at most one pair per address is retained and the first inserted pair wins. -/
def insertPair (rs : List ValuePair) (p : ValuePair) : List ValuePair :=
  if rs.any (fun q => q.addr == p.addr) then rs else insertSorted rs p

/-- Addresses of a result list. -/
def addrs (rs : List ValuePair) : List Nat := rs.map ValuePair.addr

/-- Modelled from the spec (sections 3 and 4.1): the per-chunk page status
bitmap of the wuwa module, which is not among the available sources.  It
records the chunk base address and length and a per-page success flag, page 0
being the page that contains the base address. -/
structure PageStatusBitmap where
  base : Nat
  len : Nat
  succ : Nat → Bool

/-- Modelled from the spec (section 4.1): number of pages covered, including
partial leading and trailing pages. -/
def PageStatusBitmap.num_pages (st : PageStatusBitmap) : Nat :=
  (st.base % PAGE_SIZE + st.len + PAGE_SIZE - 1) / PAGE_SIZE

/-- Modelled from the spec (section 4.1): a fresh bitmap with every page
marked failed; the argument order (length, base address) follows the source
call sites. -/
def PageStatusBitmap.new (len base : Nat) : PageStatusBitmap :=
  ⟨base, len, fun _ => false⟩

/-- Modelled from the spec (section 4.1): mark one page successful. -/
def PageStatusBitmap.mark_success (st : PageStatusBitmap) (i : Nat) : PageStatusBitmap :=
  { st with succ := fun j => if j = i then true else st.succ j }

/-- Modelled from the spec (section 4.1): mark every page successful. -/
def PageStatusBitmap.mark_all_success (st : PageStatusBitmap) : PageStatusBitmap :=
  { st with succ := fun _ => true }

/-- Modelled from the spec (section 4.1): success of page i. -/
def PageStatusBitmap.is_page_success (st : PageStatusBitmap) (i : Nat) : Bool :=
  decide (i < st.num_pages) && st.succ i

/-- Modelled from the spec (section 4.1): number of successful pages. -/
def PageStatusBitmap.success_count (st : PageStatusBitmap) : Nat :=
  ((List.range st.num_pages).filter (fun i => st.succ i)).length

/-- Coalesced maximal runs of true values of f below n, as half-open index
intervals in increasing order. -/
def succRuns (f : Nat → Bool) : Nat → List (Nat × Nat)
  | 0 => []
  | n + 1 =>
      let rs := succRuns f n
      if f n then
        match rs.getLast? with
        | some (s, e) => if e = n then rs.dropLast ++ [(s, n + 1)] else rs ++ [(n, n + 1)]
        | none => [(n, n + 1)]
      else rs

/-- Modelled from the spec (section 4.1): the coalesced half-open page-index
intervals of successful pages. -/
def PageStatusBitmap.get_success_page_ranges (st : PageStatusBitmap) : List (Nat × Nat) :=
  succRuns st.succ st.num_pages

/-- Round a up to the next multiple of step (the rem computation used for
first_addr in group_search.rs lines 243-248). -/
def alignUp (a step : Nat) : Nat :=
  if a % step = 0 then a else a + step - a % step

/-- Anchor selection of search_in_buffer_group (group_search.rs lines
180-214): the first FixedInt value, its index and its byte pattern
(the first size bytes of the stored array).  FixedFloat anchors are outside
the embedding (see the header comment). -/
def findAnchorAux : List SearchValue → Nat → Option (Nat × List Nat)
  | [], _ => none
  | v :: vs, i =>
      match v with
      | .fixedInt bytes ty => some (i, bytes.take ty.size)
      | _ => findAnchorAux vs (i + 1)

def findAnchor (values : List SearchValue) : Option (Nat × List Nat) :=
  findAnchorAux values 0

/-- All offsets at which pat occurs in buf, in increasing order: the memmem
finder loop of group_search.rs lines 259-274 advances one byte past each hit,
so overlapping occurrences are all collected. -/
def occurrences (pat buf : List Nat) : List Nat :=
  (List.range (buf.length + 1 - pat.length)).filter
    (fun o => decide (slice buf o pat.length = pat))

/-- Sum of the value sizes before index k (anchor_offset_in_sequence,
group_search.rs lines 285-288). -/
def presizeAt (values : List SearchValue) (k : Nat) : Nat :=
  ((values.take k).map (fun v => v.value_type.size)).sum

/-- Predicate: every page of the bitmap is successful. -/
def PageStatusBitmap.allSucc (st : PageStatusBitmap) : Prop :=
  ∀ i, i < st.num_pages → st.succ i = true

/-- The ordered-mode sequence start for an anchor at absolute address a:
the anchor address minus the sizes of the values before the anchor
(saturating, as in the source). -/
def ordStart (q : SearchQuery) (aidx a : Nat) : Nat := a - presizeAt q.values aidx

/-- The ordered-mode validation window end for a sequence start s: the window
is max(sum of value sizes, range) bytes, clipped to the buffer and region
ends. -/
def ordEnd (q : SearchQuery) (s buffer_end region_end : Nat) : Nat :=
  min (s + max (sizesSum q) q.range) (min buffer_end region_end)

/-- Membership of an absolute address in the successful page ranges, with the
translation ranges-to-addresses of group_search.rs lines 322-330. -/
def inSuccessRanges (st : PageStatusBitmap) (buffer_page_start addr : Nat) : Bool :=
  st.get_success_page_ranges.any
    (fun r => decide (buffer_page_start + r.1 * PAGE_SIZE ≤ addr ∧
                      addr < buffer_page_start + r.2 * PAGE_SIZE))

/-- The pairs inserted for one successful group match: value addresses paired
with their value types in value order (group_search.rs lines 367-372). -/
def emissionsOfMatch (base : Nat) (q : SearchQuery) (offs : List Nat) : List ValuePair :=
  (offs.zip q.values).map (fun po => ⟨base + po.1, po.2.value_type⟩)

/-- The anchor candidate filter of group_search.rs lines 259-274: occurrence
offsets whose absolute address is anchor-aligned, at least first_addr and
below search_end. -/
def anchorCandidates (pat buffer : List Nat) (buffer_addr first_addr search_end : Nat) :
    List Nat :=
  (occurrences pat buffer).filter
    (fun o => decide ((buffer_addr + o) % pat.length = 0 ∧
                      first_addr ≤ buffer_addr + o ∧ buffer_addr + o < search_end))

/-- Validation of one anchor candidate (group_search.rs lines 279-374): the
region check, page check, window construction and group match for the
candidate at buffer offset o; returns the emitted pairs (empty when any check
fails). -/
def emitCandidate (q : SearchQuery) (aidx : Nat) (buffer : List Nat)
    (buffer_addr region_start region_end : Nat) (st : PageStatusBitmap) (o : Nat) :
    List ValuePair :=
  let buffer_end := buffer_addr + buffer.length
  let anchor_addr := buffer_addr + o
  let start_addr := if q.mode = .ordered then ordStart q aidx anchor_addr
                    else anchor_addr - q.range
  let check_addr := if q.mode = .ordered then start_addr else anchor_addr
  if check_addr < region_start ∨ region_end ≤ check_addr then [] else
  if ¬ inSuccessRanges st (pageFloor buffer_addr) check_addr then [] else
  if q.mode = .ordered ∧ start_addr < buffer_addr then [] else
  let check_start := if q.mode = .ordered then start_addr
                     else max (anchor_addr - q.range) buffer_addr
  let check_end := if q.mode = .ordered
                   then ordEnd q start_addr buffer_end region_end
                   else min (anchor_addr + q.range) (min buffer_end region_end)
  let check_start_offset := check_start - buffer_addr
  let range_size := check_end - check_start
  if check_start_offset + range_size ≤ buffer.length then
    match try_match_group_at_address q (slice buffer check_start_offset range_size) with
    | some offs => emissionsOfMatch check_start q offs
    | none => []
  else []

/-- Addresses visited by a while loop that starts at a0 and strides by step
until reaching e. -/
def strideList (a0 e step : Nat) : List Nat :=
  (List.range ((e - a0 + step - 1) / step)).map (fun k => a0 + k * step)

/-- The pairs one address of the fallback walk contributes (group_search.rs
lines 438-458): bounds checks, the full-range window requirement and the group
match; empty when any check fails. -/
def fallbackEmits (q : SearchQuery) (buffer : List Nat) (buffer_addr search_end : Nat)
    (addr : Nat) : List ValuePair :=
  let buffer_end := buffer_addr + buffer.length
  let offset := addr - buffer_addr
  if offset < buffer.length then
    let range_end_check := min (addr + q.range) (min buffer_end search_end)
    let range_size := range_end_check - addr
    if q.range ≤ range_size ∧ offset + range_size ≤ buffer.length then
      match try_match_group_at_address q (slice buffer offset range_size) with
      | some offs => emissionsOfMatch addr q offs
      | none => []
    else []
  else []

/-- Body of the fallback walk at one address: the contributed pairs inserted
into the running result set. -/
def fallbackAt (q : SearchQuery) (buffer : List Nat) (buffer_addr search_end : Nat)
    (rs : List ValuePair) (addr : Nat) : List ValuePair :=
  (fallbackEmits q buffer buffer_addr search_end addr).foldl insertPair rs

/-- The addresses one successful page range of the fallback walk visits
(group_search.rs lines 411-436): the range is clipped to the buffer and the
search bounds, skipped when empty, and walked from the first aligned address
at min-element-size strides. -/
def fallbackWalk (buffer_len buffer_addr search_end first_addr min_element_size : Nat)
    (r : Nat × Nat) : List Nat :=
  let buffer_end := buffer_addr + buffer_len
  let buffer_page_start := pageFloor buffer_addr
  let page_range_start := buffer_page_start + r.1 * PAGE_SIZE
  let page_range_end := buffer_page_start + r.2 * PAGE_SIZE
  let range_start := max page_range_start buffer_addr
  let range_end := min page_range_end (min search_end buffer_end)
  if range_end ≤ range_start then [] else
  let a0 := if range_start ≤ first_addr then first_addr
            else alignUp range_start min_element_size
  strideList a0 range_end min_element_size

/-- search_in_buffer_group_fallback of group_search.rs (lines 379-461): the
aligned walk over every successful page range. -/
def search_in_buffer_group_fallback (buffer : List Nat)
    (buffer_addr region_start region_end min_element_size : Nat) (q : SearchQuery)
    (st : PageStatusBitmap) (results : List ValuePair) : List ValuePair :=
  let buffer_end := buffer_addr + buffer.length
  let search_start := max buffer_addr region_start
  let search_end := min buffer_end region_end
  let first_addr := alignUp search_start min_element_size
  let page_ranges := st.get_success_page_ranges
  if page_ranges.isEmpty then results else
  page_ranges.foldl
    (fun rs r =>
      (fallbackWalk buffer.length buffer_addr search_end first_addr min_element_size
        r).foldl (fallbackAt q buffer buffer_addr search_end) rs)
    results

/-- search_in_buffer_group of group_search.rs (lines 169-375): anchor-first
scan when a FixedInt value exists, otherwise the fallback walk. -/
def search_in_buffer_group (buffer : List Nat)
    (buffer_addr region_start region_end min_element_size : Nat) (q : SearchQuery)
    (st : PageStatusBitmap) (results : List ValuePair) : List ValuePair :=
  match findAnchor q.values with
  | none =>
      search_in_buffer_group_fallback buffer buffer_addr region_start region_end
        min_element_size q st results
  | some (aidx, pat) =>
      let buffer_end := buffer_addr + buffer.length
      let search_start := max buffer_addr region_start
      let search_end := min buffer_end region_end
      let first_addr := alignUp search_start min_element_size
      if st.get_success_page_ranges.isEmpty then results else
      (anchorCandidates pat buffer buffer_addr first_addr search_end).foldl
        (fun rs o =>
          (emitCandidate q aidx buffer buffer_addr region_start region_end st o).foldl
            insertPair rs)
        results

/-- Modelled from the spec (sections 4.2 and 6): the reader contract.  A read
of len bytes at current fills the buffer and marks page i of the status
successful iff the page read succeeded; the embedding represents the target
memory as a byte function mem and per-page success as a page predicate pageOk
(page indices are absolute, address divided by PAGE_SIZE).  Bytes of failed
pages are unspecified by the contract; the model leaves the memory bytes in
the buffer. -/
def readStatus (pageOk : Nat → Bool) (current len : Nat) : PageStatusBitmap :=
  ⟨current, len, fun i => pageOk (current / PAGE_SIZE + i)⟩

/-- The combined page status built for the overlap pass (group_search.rs lines
73-99): a fresh bitmap over the overlap view in which the leading overlap
pages are blanket-marked successful and the new chunk's pages are remapped by
their page offset. -/
def combinedStatusOf (ps : PageStatusBitmap) (overlap_len overlap_start_addr
    search_range current : Nat) : PageStatusBitmap :=
  let c0 := PageStatusBitmap.new overlap_len overlap_start_addr
  let overlap_start_page := overlap_start_addr / PAGE_SIZE
  let overlap_end := overlap_start_addr + search_range
  let overlap_end_page := (overlap_end + PAGE_SIZE - 1) / PAGE_SIZE
  let num_overlap_pages := overlap_end_page - overlap_start_page
  let c1 := (List.range num_overlap_pages).foldl PageStatusBitmap.mark_success c0
  let page_offset := (pageFloor current - pageFloor overlap_start_addr) / PAGE_SIZE
  (List.range ps.num_pages).foldl
    (fun acc i =>
      if ps.is_page_success i && decide (page_offset + i < acc.num_pages)
      then acc.mark_success (page_offset + i) else acc)
    c1

/-- State threaded through the chunk loop of search_region_group: the result
set and the is_first_chunk / prev_chunk_valid flags. -/
structure ScanState where
  results : List ValuePair
  is_first : Bool
  prev_valid : Bool

/-- One iteration of the while loop of search_region_group (group_search.rs
lines 34-151) at chunk index i.  Reads are modelled through mem and pageOk as
described at readStatus; reads never fail at transport level in the model, so
the Err arm of the source (which only sets prev_chunk_valid to false, like the
zero-success-pages arm) is not represented. -/
def chunkStep (mem : Nat → Nat) (pageOk : Nat → Bool) (q : SearchQuery)
    (start endA chunk : Nat) (st : ScanState) (i : Nat) : ScanState :=
  let c0 := pageFloor start
  let current := c0 + i * chunk
  let chunk_end := min (current + chunk) endA
  let chunk_len := chunk_end - current
  let mes := minElementSize q
  let ps := readStatus pageOk current chunk_len
  if 0 < ps.success_count then
    if st.is_first then
      { results := search_in_buffer_group (memSlice mem current chunk_len) current
          start chunk_end mes q ps st.results,
        is_first := false, prev_valid := true }
    else if st.prev_valid then
      let overlap_start_offset := chunk - q.range
      let overlap_start_addr := current - q.range
      let overlap_len := q.range + chunk_len
      let cst := combinedStatusOf ps overlap_len overlap_start_addr q.range current
      let front_len := chunk - overlap_start_offset
      let buf := memSlice mem (current - front_len) front_len ++
                 memSlice mem current chunk_len
      { results := search_in_buffer_group buf overlap_start_addr start chunk_end
          mes q cst st.results,
        is_first := st.is_first, prev_valid := true }
    else
      { results := search_in_buffer_group (memSlice mem current chunk_len) current
          start chunk_end mes q ps st.results,
        is_first := st.is_first, prev_valid := true }
  else { st with prev_valid := false }

/-- search_region_group of group_search.rs (lines 11-166): the chunked sliding
scan of the region [start, endA) with the given chunk size.  The while loop is
a fold over the chunk indices; chunk index i reads at pageFloor start + i *
chunk, exactly the successive values of current in the source. -/
def search_region_group (mem : Nat → Nat) (pageOk : Nat → Bool) (q : SearchQuery)
    (start endA chunk : Nat) : List ValuePair :=
  let c0 := pageFloor start
  let n := (endA - c0 + chunk - 1) / chunk
  ((List.range n).foldl (chunkStep mem pageOk q start endA chunk)
    ⟨[], true, false⟩).results

/-- Maximum of a list of naturals, zero when empty. -/
def maxOr0 : List Nat → Nat
  | [] => 0
  | x :: xs => xs.foldl Nat.max x

/-- Modelled from the spec (sections 2 and 4.8): the single-value region scan
of single_search.rs, which is not among the available sources.  Every
value-size-aligned address of the region in a successful page whose slice
matches is collected; the single-value path ignores the range. -/
def search_region_single (mem : Nat → Nat) (pageOk : Nat → Bool) (v : SearchValue)
    (start endA : Nat) : List ValuePair :=
  let sz := v.value_type.size
  ((strideList (alignUp start sz) endA sz).filter
    (fun a => decide (a + sz ≤ endA) && pageOk (a / PAGE_SIZE) &&
              v.matched (memSlice mem a sz))).foldl
    (fun rs a => insertPair rs ⟨a, v.value_type⟩) []

/-- Modelled from the spec (section 4.8): the refine pass of a single-value
query re-reads the value at each retained address and keeps it iff the new
query matches. -/
def refine_single_search (mem : Nat → Nat) (v : SearchValue)
    (current : List ValuePair) : List ValuePair :=
  (current.filter (fun p => v.matched (memSlice mem p.addr v.value_type.size))).map
    (fun p => ⟨p.addr, v.value_type⟩)

/-- Modelled from the spec (section 4.8): the refine pass of a group query
re-reads max value size + range bytes at each retained address and re-runs the
group matcher there (refine_search_group_with_dfs is not among the available
sources). -/
def refine_search_group (mem : Nat → Nat) (q : SearchQuery)
    (current : List ValuePair) : List ValuePair :=
  current.filter
    (fun p =>
      (try_match_group_at_address q
        (memSlice mem p.addr (maxOr0 (q.values.map (fun v => v.value_type.size)) +
          q.range))).isSome)

/-- Outcome of a manager operation: the returned Result and the number of
times the completion callback was invoked. -/
structure ManagerOutcome where
  result : Except String Nat
  callback_fires : Nat
deriving Repr

/-- search_memory of manager.rs (lines 184-317), as observed through its
result and its completion-callback behaviour.  The source performs no query
validation: a query with more than one value runs the group scan per region, a
one-value query runs the single scan, and a zero-value query indexes
query.values[0] inside the per-region closure, which panics; the panic is
modelled as none.  On every non-error path the completion callback fires
exactly once, after all regions are merged.  The store receives the per-region
sets as batches, so the final count is the sum of the per-region result
sizes. -/
def search_memory (initialized : Bool) (mem : Nat → Nat) (pageOk : Nat → Bool)
    (q : SearchQuery) (regions : List (Nat × Nat)) (chunk : Nat) :
    Option ManagerOutcome :=
  if ¬ initialized then some ⟨.error "SearchEngineManager not initialized", 0⟩ else
  match q.values with
  | _ :: _ :: _ =>
      some ⟨.ok ((regions.map
        (fun r => (search_region_group mem pageOk q r.1 r.2 chunk).length)).sum), 1⟩
  | [v] =>
      some ⟨.ok ((regions.map
        (fun r => (search_region_single mem pageOk v r.1 r.2).length)).sum), 1⟩
  | [] => if regions.isEmpty then some ⟨.ok 0, 1⟩ else none

/-- refine_search of manager.rs (lines 412-588), as observed through its
result and its completion-callback behaviour.  When the manager is not
initialized, the error propagates before the callback exists; when the current
result set is empty, the source returns Ok(0) at lines 433-436 without
reaching the completion callback at lines 582-585; otherwise the refine runs
and the callback fires exactly once. -/
def refine_search (initialized : Bool) (mem : Nat → Nat) (q : SearchQuery)
    (current : List ValuePair) : ManagerOutcome :=
  if ¬ initialized then ⟨.error "SearchEngineManager not initialized", 0⟩ else
  if current.isEmpty then ⟨.ok 0, 0⟩ else
  match q.values with
  | [v] => ⟨.ok (refine_single_search mem v current).length, 1⟩
  | _ => ⟨.ok (refine_search_group mem q current).length, 1⟩

/-- ProgressBuffer of manager.rs (lines 86-135): the externally owned pointer
and length; the pointed-to bytes are modelled as a byte function. -/
structure ProgressBuffer where
  is_null : Bool
  len : Nat

/-- Byte k of the 32-bit little-endian two's-complement encoding of v. -/
def i32byte (v : Int) (k : Nat) : Nat := (v % (2 : Int) ^ 32).toNat / 256 ^ k % 256

/-- Byte k of the 64-bit little-endian two's-complement encoding of v. -/
def i64byte (v : Int) (k : Nat) : Nat := (v % (2 : Int) ^ 64).toNat / 256 ^ k % 256

/-- ProgressBuffer.update (manager.rs lines 101-116): writes nothing when the
pointer is null or the buffer is shorter than 20 bytes; otherwise writes the
progress at bytes 0..4, the searched-region count at 4..8 and the total found
at 8..16, all little-endian. -/
def ProgressBuffer.update (pb : ProgressBuffer) (buf : Nat → Nat)
    (progress regions_searched total_found : Int) : Nat → Nat :=
  if pb.is_null ∨ pb.len < 20 then buf else
  fun i =>
    if i < 4 then i32byte progress i
    else if i < 8 then i32byte regions_searched (i - 4)
    else if i < 16 then i64byte total_found (i - 8)
    else buf i

/-- ProgressBuffer.update_heartbeat (manager.rs lines 119-128): writes nothing
when the pointer is null or the buffer is shorter than 20 bytes; otherwise
writes the heartbeat at bytes 16..20, little-endian. -/
def ProgressBuffer.update_heartbeat (pb : ProgressBuffer) (buf : Nat → Nat)
    (heartbeat : Int) : Nat → Nat :=
  if pb.is_null ∨ pb.len < 20 then buf else
  fun i => if 16 ≤ i ∧ i < 20 then i32byte heartbeat (i - 16) else buf i

/-- Little-endian 8-byte array of a value below 2^32, the way the tests build
Dword patterns. -/
def dwordBytes (n : Nat) : List Nat :=
  [n % 256, n / 256 % 256, n / 65536 % 256, n / 16777216 % 256, 0, 0, 0, 0]

/-- A FixedInt Dword search value, as built by SearchValue fixed in the
tests. -/
def fxDword (n : Nat) : SearchValue := .fixedInt (dwordBytes n) .dword

/-- Declarative meaning of the matchFrom loop: o is the least stride position
from c at which the value matches inside the window. -/
def leastStride (v : SearchValue) (buf : List Nat) (c o : Nat) : Prop :=
  c ≤ o ∧ v.value_type.size ∣ (o - c) ∧ o + v.value_type.size ≤ buf.length ∧
  v.matched (slice buf o v.value_type.size) = true ∧
  ∀ p, c ≤ p → p < o → v.value_type.size ∣ (p - c) →
    v.matched (slice buf p v.value_type.size) = false

/-- Declarative meaning of matchFrom failing: no stride position from c inside
the window matches. -/
def noStride (v : SearchValue) (buf : List Nat) (c : Nat) : Prop :=
  ∀ p, c ≤ p → v.value_type.size ∣ (p - c) → p + v.value_type.size ≤ buf.length →
    v.matched (slice buf p v.value_type.size) = false

/-- Declarative greedy matching relation: the offsets are, value by value, the
least stride match from the running cursor, the cursor moving past each
matched value. -/
inductive GreedyOrd (buf : List Nat) : List SearchValue → Nat → List Nat → Prop
  | nil (c : Nat) : GreedyOrd buf [] c []
  | cons {v : SearchValue} {vs : List SearchValue} {c o : Nat} {os : List Nat} :
      leastStride v buf c o → GreedyOrd buf vs (o + v.value_type.size) os →
      GreedyOrd buf (v :: vs) c (o :: os)

/-- Sortedness of a result list: strictly increasing addresses (which also
means no two pairs share an address). -/
def addrSorted (rs : List ValuePair) : Prop := (addrs rs).Pairwise (· < ·)

/-! Basic facts about the embedded data. -/

lemma ValueType.size_pos (t : ValueType) : 0 < t.size := by
  cases t <;> simp [ValueType.size]

lemma ValueType.size_dvd_of_le {s t : ValueType} (h : s.size ≤ t.size) : s.size ∣ t.size := by
  cases s <;> cases t <;> simp_all [ValueType.size] <;> decide

lemma foldl_min_le_init (as : List Nat) (a : Nat) : as.foldl Nat.min a ≤ a := by
  induction as generalizing a with
  | nil => simp
  | cons b bs ih => exact le_trans (ih (min a b)) (min_le_left a b)

lemma foldl_min_le_mem (as : List Nat) (a y : Nat) (hy : y ∈ as) : as.foldl Nat.min a ≤ y := by
  induction as generalizing a with
  | nil => cases hy
  | cons b bs ih =>
      rcases List.mem_cons.mp hy with rfl | hy
      · exact le_trans (foldl_min_le_init bs (min a y)) (min_le_right a y)
      · exact ih (min a b) hy

lemma minOr1_le (l : List Nat) (x : Nat) (hx : x ∈ l) : minOr1 l ≤ x := by
  cases l with
  | nil => cases hx
  | cons a as =>
      rcases List.mem_cons.mp hx with rfl | hx
      · exact foldl_min_le_init as x
      · exact foldl_min_le_mem as a x hx

lemma foldl_min_mem (as : List Nat) (a : Nat) :
    as.foldl Nat.min a = a ∨ as.foldl Nat.min a ∈ as := by
  induction as generalizing a with
  | nil => exact Or.inl rfl
  | cons b bs ih =>
      show bs.foldl Nat.min (min a b) = a ∨ bs.foldl Nat.min (min a b) ∈ b :: bs
      rcases ih (min a b) with h | h
      · rcases le_total a b with hab | hab
        · exact Or.inl (h.trans (Nat.min_eq_left hab))
        · refine Or.inr ?_
          rw [h.trans (Nat.min_eq_right hab)]
          exact List.mem_cons_self b bs
      · exact Or.inr (List.mem_cons_of_mem b h)

lemma minOr1_mem (l : List Nat) (h : l ≠ []) : minOr1 l ∈ l := by
  cases l with
  | nil => exact absurd rfl h
  | cons a as =>
      rcases foldl_min_mem as a with h1 | h1
      · show as.foldl Nat.min a ∈ a :: as
        rw [h1]
        exact List.mem_cons_self a as
      · exact List.mem_cons_of_mem a h1

/-- The minimum element size divides every value size of the query: all sizes
are powers of two from one to eight, so the smaller always divides the
larger. -/
lemma minElementSize_dvd (q : SearchQuery) (v : SearchValue) (hv : v ∈ q.values) :
    minElementSize q ∣ v.value_type.size := by
  have hmem : v.value_type.size ∈ q.values.map (fun w => w.value_type.size) :=
    List.mem_map.mpr ⟨v, hv, rfl⟩
  have hle : minElementSize q ≤ v.value_type.size := minOr1_le _ _ hmem
  have hminmem : minElementSize q ∈ q.values.map (fun w => w.value_type.size) :=
    minOr1_mem _ (by intro h; rw [h] at hmem; cases hmem)
  rcases List.mem_map.mp hminmem with ⟨w, _, hws⟩
  have : w.value_type.size ∣ v.value_type.size := ValueType.size_dvd_of_le (hws ▸ hle)
  simpa [hws] using this

lemma minElementSize_pos (q : SearchQuery) : 0 < minElementSize q := by
  cases hq : q.values.map (fun v => v.value_type.size) with
  | nil => simp [minElementSize, hq, minOr1]
  | cons a as =>
      have hmem : minElementSize q ∈ q.values.map (fun v => v.value_type.size) :=
        minOr1_mem _ (by simp [hq])
      rcases List.mem_map.mp hmem with ⟨v, _, hvs⟩
      rw [← hvs]
      exact ValueType.size_pos _

lemma alignUp_le {a step : Nat} (hs : 0 < step) {b : Nat} (hb : a ≤ b) (hd : step ∣ b) :
    alignUp a step ≤ b := by
  unfold alignUp
  split
  next => exact hb
  next hmod =>
    rcases hd with ⟨k, rfl⟩
    have h1 : a % step < step := Nat.mod_lt _ hs
    have h2 := Nat.div_add_mod a step
    have h3 : a / step < k := by
      by_contra hcon
      push_neg at hcon
      have h4 : step * k ≤ step * (a / step) := Nat.mul_le_mul_left step hcon
      omega
    have h5 : step * (a / step) + step ≤ step * k := by
      calc step * (a / step) + step = step * (a / step + 1) := by ring
      _ ≤ step * k := Nat.mul_le_mul_left step h3
    omega

lemma alignUp_ge {step : Nat} (hs : 0 < step) (a : Nat) : a ≤ alignUp a step := by
  unfold alignUp
  split
  next => exact le_refl a
  next =>
    have := Nat.mod_lt a hs
    omega

lemma alignUp_dvd {a step : Nat} (hs : 0 < step) : step ∣ alignUp a step := by
  unfold alignUp
  split
  · exact Nat.dvd_of_mod_eq_zero (by assumption)
  · have h1 : a % step < step := Nat.mod_lt _ hs
    have h2 : step ∣ a - a % step := by
      have hda : a % step ≤ a := Nat.mod_le a step
      exact ⟨a / step, by
        have := Nat.div_add_mod a step
        omega⟩
    rcases h2 with ⟨k, hk⟩
    refine ⟨k + 1, ?_⟩
    have hr : a % step ≤ a := Nat.mod_le a step
    calc a + step - a % step = (a - a % step) + step := by omega
    _ = step * k + step := by rw [hk]
    _ = step * (k + 1) := by ring

/-! Slice algebra. -/

lemma slice_length (buf : List Nat) (o n : Nat) :
    (slice buf o n).length = min n (buf.length - o) := by
  simp [slice]

lemma slice_append_left {buf : List Nat} {o n : Nat} (ext : List Nat)
    (h : o + n ≤ buf.length) : slice (buf ++ ext) o n = slice buf o n := by
  apply List.ext_getElem
  · simp [slice]
    omega
  · intro i h1 h2
    have hb : i < min n (buf.length - o) := by simpa [slice] using h2
    simp only [slice, List.getElem_take, List.getElem_drop]
    rw [List.getElem_append_left (by omega)]

lemma slice_slice {buf : List Nat} {u m p s : Nat} (h : p + s ≤ m) :
    slice (slice buf u m) p s = slice buf (u + p) s := by
  apply List.ext_getElem
  · simp [slice]
    omega
  · intro i h1 h2
    simp only [slice, List.getElem_take, List.getElem_drop]
    congr 1
    omega

lemma slice_split {buf : List Nat} {o n1 n2 : Nat} (h : n1 ≤ n2) :
    slice buf o n2 = slice buf o n1 ++ slice buf (o + n1) (n2 - n1) := by
  apply List.ext_getElem
  · simp [slice]
    omega
  · intro i h1 h2
    have hb : i < min n2 (buf.length - o) := by simpa [slice] using h1
    by_cases hi : i < (slice buf o n1).length
    · rw [List.getElem_append_left hi]
      simp only [slice, List.getElem_take, List.getElem_drop]
    · rw [List.getElem_append_right (le_of_not_lt hi)]
      have hi2 : min n1 (buf.length - o) ≤ i := by
        simpa [slice] using le_of_not_lt hi
      simp only [slice, List.getElem_take, List.getElem_drop, List.length_take,
        List.length_drop]
      congr 1
      omega

lemma memSlice_length (mem : Nat → Nat) (a n : Nat) : (memSlice mem a n).length = n := by
  simp [memSlice]

lemma slice_memSlice {mem : Nat → Nat} {a n o k : Nat} (h : o + k ≤ n) :
    slice (memSlice mem a n) o k = memSlice mem (a + o) k := by
  unfold slice memSlice
  apply List.ext_getElem
  · simp
    omega
  · intro i h1 h2
    simp only [List.getElem_take, List.getElem_drop, List.getElem_map, List.getElem_range]
    rw [Nat.add_assoc]

lemma memSlice_append (mem : Nat → Nat) (a m n : Nat) :
    memSlice mem a m ++ memSlice mem (a + m) n = memSlice mem a (m + n) := by
  unfold memSlice
  apply List.ext_getElem
  · simp
  · intro i h1 h2
    rcases Nat.lt_or_ge i m with h | h
    · rw [List.getElem_append_left (by simp [h])]
      simp
    · rw [List.getElem_append_right (by simp [h])]
      simp only [List.getElem_map, List.getElem_range, List.length_map, List.length_range]
      congr 1
      omega

/-! Characterization of the ordered-cursor inner loop. -/

lemma matchFromAux_adequate (v : SearchValue) (buf : List Nat) :
    ∀ f1 f2 c, buf.length < f1 + c → buf.length < f2 + c →
      matchFromAux v buf f1 c = matchFromAux v buf f2 c := by
  intro f1
  induction f1 with
  | zero =>
      intro f2 c h1 _
      cases f2 with
      | zero => rfl
      | succ m =>
          show matchFromAux v buf 0 c = matchFromAux v buf (m + 1) c
          have hs := ValueType.size_pos v.value_type
          simp only [matchFromAux]
          rw [if_neg (by omega)]
  | succ k ih =>
      intro f2 c h1 h2
      cases f2 with
      | zero =>
          have hs := ValueType.size_pos v.value_type
          simp only [matchFromAux]
          rw [if_neg (by omega)]
      | succ m =>
          have hs := ValueType.size_pos v.value_type
          simp only [matchFromAux]
          by_cases hg : c + v.value_type.size ≤ buf.length
          · rw [if_pos hg, if_pos hg]
            by_cases hm : v.matched (slice buf c v.value_type.size)
            · rw [if_pos hm, if_pos hm]
            · rw [if_neg hm, if_neg hm]
              exact ih m (c + v.value_type.size) (by omega) (by omega)
          · rw [if_neg hg, if_neg hg]

lemma matchFrom_unfold (v : SearchValue) (buf : List Nat) (c : Nat) :
    matchFrom v buf c =
      if c + v.value_type.size ≤ buf.length then
        if v.matched (slice buf c v.value_type.size) then some c
        else matchFrom v buf (c + v.value_type.size)
      else none := by
  have hs := ValueType.size_pos v.value_type
  show matchFromAux v buf (buf.length + 1) c = _
  simp only [matchFromAux]
  by_cases hg : c + v.value_type.size ≤ buf.length
  · rw [if_pos hg, if_pos hg]
    by_cases hm : v.matched (slice buf c v.value_type.size)
    · rw [if_pos hm, if_pos hm]
    · rw [if_neg hm, if_neg hm]
      exact matchFromAux_adequate v buf buf.length (buf.length + 1) (c + v.value_type.size)
        (by omega) (by omega)
  · rw [if_neg hg, if_neg hg]

lemma matchFrom_iff_stop (v : SearchValue) (buf : List Nat) (c : Nat)
    (hg : ¬ (c + v.value_type.size ≤ buf.length)) :
    (∀ o, matchFrom v buf c = some o ↔ leastStride v buf c o) ∧
    (matchFrom v buf c = none ↔ noStride v buf c) := by
  rw [matchFrom_unfold, if_neg hg]
  constructor
  · intro o
    constructor
    · intro h
      exact absurd h (by simp)
    · rintro ⟨h1, h2, h3, h4, h5⟩
      exact absurd (le_trans (by omega) h3) hg
  · constructor
    · intro _ p hp1 hp2 hp3
      exact absurd (le_trans (by omega) hp3) hg
    · intro _
      rfl

lemma matchFrom_iff_aux (v : SearchValue) (buf : List Nat) :
    ∀ n c, buf.length ≤ c + n →
      ((∀ o, matchFrom v buf c = some o ↔ leastStride v buf c o) ∧
       (matchFrom v buf c = none ↔ noStride v buf c)) := by
  have hs := ValueType.size_pos v.value_type
  intro n
  induction n with
  | zero =>
      intro c hc
      exact matchFrom_iff_stop v buf c (by omega)
  | succ m ih =>
      intro c hc
      by_cases hg : c + v.value_type.size ≤ buf.length
      · have hrec := ih (c + v.value_type.size) (by omega)
        by_cases hm : v.matched (slice buf c v.value_type.size) = true
        · rw [matchFrom_unfold, if_pos hg, if_pos hm]
          constructor
          · intro o
            constructor
            · intro h
              injection h with h
              subst h
              exact ⟨le_refl c, by simp, hg, hm,
                fun p hp1 hp2 _ => absurd hp2 (by omega)⟩
            · rintro ⟨h1, h2, h3, h4, h5⟩
              rcases Nat.lt_or_ge c o with ho | ho
              · exact absurd hm (by simp [h5 c (le_refl c) ho (by simp)])
              · have : o = c := le_antisymm (le_of_not_lt (fun hco => absurd hm
                  (by simp [h5 c (le_refl c) hco (by simp)]))) h1
                rw [this]
          · constructor
            · intro h; cases h
            · intro h
              exact absurd (h c (le_refl c) (by simp) hg) (by simp [hm])
        · rw [matchFrom_unfold, if_pos hg, if_neg hm]
          have step_dvd : ∀ p, c + v.value_type.size ≤ p →
              (v.value_type.size ∣ p - (c + v.value_type.size) ↔
               v.value_type.size ∣ p - c) := by
            intro p hp
            constructor
            · intro hd
              have : p - c = (p - (c + v.value_type.size)) + v.value_type.size := by omega
              rw [this]
              exact Nat.dvd_add hd dvd_rfl
            · intro hd
              have : p - (c + v.value_type.size) = (p - c) - v.value_type.size := by omega
              rw [this]
              exact Nat.dvd_sub' hd dvd_rfl
          have lower : ∀ p, c ≤ p → v.value_type.size ∣ p - c →
              v.matched (slice buf p v.value_type.size) = true → c + v.value_type.size ≤ p := by
            intro p hp1 hp2 hp3
            rcases Nat.eq_or_lt_of_le hp1 with rfl | hlt
            · exact absurd hp3 hm
            · have : v.value_type.size ≤ p - c := Nat.le_of_dvd (by omega) hp2
              omega
          constructor
          · intro o
            rw [(hrec.1 o)]
            constructor
            · rintro ⟨h1, h2, h3, h4, h5⟩
              refine ⟨by omega, (step_dvd o h1).mp h2, h3, h4, ?_⟩
              intro p hp1 hp2 hp3
              rcases Nat.eq_or_lt_of_le hp1 with rfl | hlt
              · simpa using hm
              · have hps : c + v.value_type.size ≤ p := by
                  have : v.value_type.size ≤ p - c := Nat.le_of_dvd (by omega) hp3
                  omega
                exact h5 p hps hp2 ((step_dvd p hps).mpr hp3)
            · rintro ⟨h1, h2, h3, h4, h5⟩
              have ho : c + v.value_type.size ≤ o := lower o h1 h2 h4
              refine ⟨ho, (step_dvd o ho).mpr h2, h3, h4, ?_⟩
              intro p hp1 hp2 hp3
              exact h5 p (by omega) hp2 ((step_dvd p hp1).mp hp3)
          · rw [hrec.2]
            constructor
            · intro h p hp1 hp2 hp3
              by_cases hmm : v.matched (slice buf p v.value_type.size) = true
              · have hps : c + v.value_type.size ≤ p := lower p hp1 hp2 hmm
                exact absurd hmm (by simp [h p hps ((step_dvd p hps).mpr hp2) hp3])
              · simpa using hmm
            · intro h p hp1 hp2 hp3
              exact h p (by omega) ((step_dvd p hp1).mp hp2) hp3
      · exact matchFrom_iff_stop v buf c hg

lemma matchFrom_some_iff (v : SearchValue) (buf : List Nat) (c o : Nat) :
    matchFrom v buf c = some o ↔ leastStride v buf c o :=
  (matchFrom_iff_aux v buf buf.length c (by omega)).1 o

lemma matchFrom_none_iff (v : SearchValue) (buf : List Nat) (c : Nat) :
    matchFrom v buf c = none ↔ noStride v buf c :=
  (matchFrom_iff_aux v buf buf.length c (by omega)).2

/-! The greedy left-to-right semantics of the ordered matcher. -/

lemma tmOrdered_some_iff (vs : List SearchValue) (buf : List Nat) (c : Nat)
    (os : List Nat) : tmOrdered vs buf c = some os ↔ GreedyOrd buf vs c os := by
  induction vs generalizing c os with
  | nil =>
      constructor
      · intro h
        injection h with h
        subst h
        exact GreedyOrd.nil c
      · intro h
        cases h
        rfl
  | cons v vs ih =>
      constructor
      · intro h
        simp only [tmOrdered] at h
        cases hm : matchFrom v buf c with
        | none => rw [hm] at h; cases h
        | some o =>
            rw [hm] at h
            rcases Option.map_eq_some'.mp h with ⟨os', hos', rfl⟩
            exact GreedyOrd.cons ((matchFrom_some_iff v buf c o).mp hm)
              ((ih _ os').mp hos')
      · intro h
        cases h with
        | cons h1 h2 =>
            rename_i o os'
            simp only [tmOrdered]
            rw [(matchFrom_some_iff v buf c _).mpr h1]
            show Option.map (fun os => o :: os) (tmOrdered vs buf (o + v.value_type.size)) =
              some (o :: os')
            rw [(ih _ _).mpr h2]
            rfl

lemma GreedyOrd.length_eq {buf : List Nat} {vs : List SearchValue} {c : Nat}
    {os : List Nat} (h : GreedyOrd buf vs c os) : os.length = vs.length := by
  induction h with
  | nil => rfl
  | cons _ _ ih => simp [ih]

lemma GreedyOrd.lower_bound {buf : List Nat} {vs : List SearchValue} {c : Nat}
    {os : List Nat} (h : GreedyOrd buf vs c os) : ∀ x ∈ os, c ≤ x := by
  induction h with
  | nil => intro x hx; cases hx
  | cons h1 _ ih =>
      intro x hx
      rcases List.mem_cons.mp hx with rfl | hx
      · exact h1.1
      · have := ih x hx
        have := h1.1
        omega

lemma GreedyOrd.zip_facts {buf : List Nat} {vs : List SearchValue} {c : Nat}
    {os : List Nat} (h : GreedyOrd buf vs c os) :
    ∀ p ∈ os.zip vs, c ≤ p.1 ∧ p.1 + p.2.value_type.size ≤ buf.length ∧
      p.2.matched (slice buf p.1 p.2.value_type.size) = true := by
  induction h with
  | nil => intro p hp; cases hp
  | cons h1 h2 ih =>
      intro p hp
      rcases List.mem_cons.mp hp with rfl | hp
      · exact ⟨h1.1, h1.2.2.1, h1.2.2.2.1⟩
      · rcases ih p hp with ⟨ha, hb, hc⟩
        exact ⟨by have := h1.1; omega, hb, hc⟩

lemma GreedyOrd.pairwise_lt {buf : List Nat} {vs : List SearchValue} {c : Nat}
    {os : List Nat} (h : GreedyOrd buf vs c os) : os.Pairwise (· < ·) := by
  induction h with
  | nil => exact List.Pairwise.nil
  | cons h1 h2 ih =>
      rename_i v vs c o os
      refine List.pairwise_cons.mpr ⟨?_, ih⟩
      intro x hx
      have hlb := h2.lower_bound x hx
      have hs := ValueType.size_pos v.value_type
      omega

lemma GreedyOrd.dvd_all {buf : List Nat} {vs : List SearchValue} {c : Nat}
    {os : List Nat} {d : Nat} (h : GreedyOrd buf vs c os)
    (hd : ∀ v ∈ vs, d ∣ v.value_type.size) (hc : d ∣ c) : ∀ x ∈ os, d ∣ x := by
  induction h with
  | nil => intro x hx; cases hx
  | cons h1 h2 ih =>
      rename_i v vs c o os
      intro x hx
      have ho : d ∣ o := by
        have h3 : d ∣ o - c := dvd_trans (hd v (by simp)) h1.2.1
        have h4 : o = (o - c) + c := by have := h1.1; omega
        rw [h4]
        exact Nat.dvd_add h3 hc
      rcases List.mem_cons.mp hx with rfl | hx
      · exact ho
      · exact ih (fun w hw => hd w (by simp [hw])) (Nat.dvd_add ho (hd v (by simp))) x hx

lemma leastStride_append {v : SearchValue} {buf : List Nat} {c o : Nat}
    (ext : List Nat) (h : leastStride v buf c o) : leastStride v (buf ++ ext) c o := by
  rcases h with ⟨h1, h2, h3, h4, h5⟩
  refine ⟨h1, h2, by simp; omega, ?_, ?_⟩
  · rw [slice_append_left ext h3]
    exact h4
  · intro p hp1 hp2 hp3
    have hps : p + v.value_type.size ≤ o := by
      have hdo : v.value_type.size ∣ o - p := by
        have : o - p = (o - c) - (p - c) := by omega
        rw [this]
        exact Nat.dvd_sub' h2 hp3
      have : v.value_type.size ≤ o - p := Nat.le_of_dvd (by omega) hdo
      omega
    rw [slice_append_left ext (by omega)]
    exact h5 p hp1 hp2 hp3

lemma GreedyOrd.append {buf : List Nat} {vs : List SearchValue} {c : Nat}
    {os : List Nat} (ext : List Nat) (h : GreedyOrd buf vs c os) :
    GreedyOrd (buf ++ ext) vs c os := by
  induction h with
  | nil => exact GreedyOrd.nil _
  | cons h1 _ ih => exact GreedyOrd.cons (leastStride_append ext h1) ih

lemma tmOrdered_append {vs : List SearchValue} {buf : List Nat} {c : Nat}
    {os : List Nat} (ext : List Nat) (h : tmOrdered vs buf c = some os) :
    tmOrdered vs (buf ++ ext) c = some os :=
  (tmOrdered_some_iff vs (buf ++ ext) c os).mpr
    (((tmOrdered_some_iff vs buf c os).mp h).append ext)

/-! Result-set lemmas. -/

lemma mem_insertSorted (rs : List ValuePair) (p x : ValuePair) :
    x ∈ insertSorted rs p ↔ x = p ∨ x ∈ rs := by
  induction rs with
  | nil => simp [insertSorted]
  | cons q qs ih =>
      simp only [insertSorted]
      split
      · simp
      · simp only [List.mem_cons, ih]
        tauto

lemma addr_mem_addrs {rs : List ValuePair} {a : Nat} :
    a ∈ addrs rs ↔ ∃ p ∈ rs, p.addr = a := by
  simp [addrs]

lemma addr_mem_insertPair (rs : List ValuePair) (p : ValuePair) (a : Nat) :
    a ∈ addrs (insertPair rs p) ↔ a = p.addr ∨ a ∈ addrs rs := by
  unfold insertPair
  split
  next h =>
    rcases List.any_eq_true.mp h with ⟨q, hq, hqa⟩
    constructor
    · intro h1; exact Or.inr h1
    · intro h1
      rcases h1 with rfl | h1
      · exact addr_mem_addrs.mpr ⟨q, hq, by simpa using hqa⟩
      · exact h1
  next h =>
    constructor
    · intro h1
      rcases addr_mem_addrs.mp h1 with ⟨q, hq, rfl⟩
      rcases (mem_insertSorted rs p q).mp hq with rfl | hq
      · exact Or.inl rfl
      · exact Or.inr (addr_mem_addrs.mpr ⟨q, hq, rfl⟩)
    · intro h1
      rcases h1 with rfl | h1
      · exact addr_mem_addrs.mpr ⟨p, (mem_insertSorted rs p p).mpr (Or.inl rfl), rfl⟩
      · rcases addr_mem_addrs.mp h1 with ⟨q, hq, rfl⟩
        exact addr_mem_addrs.mpr ⟨q, (mem_insertSorted rs p q).mpr (Or.inr hq), rfl⟩

lemma mem_of_mem_insertPair {rs : List ValuePair} {p x : ValuePair}
    (h : x ∈ insertPair rs p) : x = p ∨ x ∈ rs := by
  unfold insertPair at h
  split at h
  · exact Or.inr h
  · exact (mem_insertSorted rs p x).mp h

lemma addrs_foldl_insertPair (ps : List ValuePair) (rs : List ValuePair) (a : Nat) :
    a ∈ addrs (ps.foldl insertPair rs) ↔ a ∈ addrs rs ∨ ∃ p ∈ ps, p.addr = a := by
  induction ps generalizing rs with
  | nil => simp
  | cons p ps ih =>
      simp only [List.foldl_cons, ih, addr_mem_insertPair]
      constructor
      · rintro (h | h)
        · rcases h with rfl | h
          · exact Or.inr ⟨p, by simp⟩
          · exact Or.inl h
        · rcases h with ⟨x, hx, rfl⟩
          exact Or.inr ⟨x, by simp [hx]⟩
      · rintro (h | h)
        · exact Or.inl (Or.inr h)
        · rcases h with ⟨x, hx, rfl⟩
          rcases List.mem_cons.mp hx with rfl | hx
          · exact Or.inl (Or.inl rfl)
          · exact Or.inr ⟨x, hx, rfl⟩

lemma insertSorted_sorted {rs : List ValuePair} {p : ValuePair}
    (h : addrSorted rs) (hn : ∀ q ∈ rs, q.addr ≠ p.addr) :
    addrSorted (insertSorted rs p) := by
  induction rs with
  | nil => simp [insertSorted, addrSorted, addrs]
  | cons q qs ih =>
      have h1 := h
      unfold addrSorted addrs at h1
      simp only [List.map_cons, List.pairwise_cons] at h1
      simp only [insertSorted]
      split
      next hlt =>
        unfold addrSorted addrs
        simp only [List.map_cons, List.pairwise_cons]
        refine ⟨?_, h1⟩
        intro b hb
        rcases List.mem_cons.mp hb with rfl | hb
        · exact hlt
        · rcases List.mem_map.mp hb with ⟨x, hx, rfl⟩
          exact lt_trans hlt (h1.1 x.addr (List.mem_map.mpr ⟨x, hx, rfl⟩))
      next hlt =>
        unfold addrSorted addrs
        simp only [List.map_cons, List.pairwise_cons]
        refine ⟨?_, ?_⟩
        · intro b hb
          rcases List.mem_map.mp hb with ⟨x, hx, rfl⟩
          rcases (mem_insertSorted qs p x).mp hx with rfl | hx
          · have hne := hn q (by simp)
            omega
          · exact h1.1 x.addr (List.mem_map.mpr ⟨x, hx, rfl⟩)
        · exact ih h1.2 (fun w hw => hn w (by simp [hw]))

lemma insertPair_sorted {rs : List ValuePair} (p : ValuePair) (h : addrSorted rs) :
    addrSorted (insertPair rs p) := by
  unfold insertPair
  split
  next => exact h
  next hne =>
    apply insertSorted_sorted h
    intro q hq hqa
    apply hne
    exact List.any_eq_true.mpr ⟨q, hq, by simp [hqa]⟩

lemma foldl_insertPair_sorted (ps : List ValuePair) {rs : List ValuePair}
    (h : addrSorted rs) : addrSorted (ps.foldl insertPair rs) := by
  induction ps generalizing rs with
  | nil => exact h
  | cons p ps ih => exact ih (insertPair_sorted p h)

lemma sortedLt_eq : ∀ (l1 l2 : List Nat), l1.Pairwise (· < ·) → l2.Pairwise (· < ·) →
    (∀ a, a ∈ l1 ↔ a ∈ l2) → l1 = l2 := by
  intro l1
  induction l1 with
  | nil =>
      intro l2 _ _ h
      cases l2 with
      | nil => rfl
      | cons b bs => cases (h b).mpr (by simp)
  | cons a as ih =>
      intro l2 h1 h2 h
      cases l2 with
      | nil => cases (h a).mp (by simp)
      | cons b bs =>
          have hp1 := List.pairwise_cons.mp h1
          have hp2 := List.pairwise_cons.mp h2
          have hab : a = b := by
            rcases List.mem_cons.mp ((h a).mp (by simp)) with h3 | h3
            · exact h3
            · rcases List.mem_cons.mp ((h b).mpr (by simp)) with h4 | h4
              · exact h4.symm
              · have := hp2.1 a h3
                have := hp1.1 b h4
                omega
          subst hab
          congr 1
          apply ih bs hp1.2 hp2.2
          intro x
          constructor
          · intro hx
            have hax : a < x := hp1.1 x hx
            rcases List.mem_cons.mp ((h x).mp (by simp [hx])) with rfl | h5
            · omega
            · exact h5
          · intro hx
            have hax : a < x := hp2.1 x hx
            rcases List.mem_cons.mp ((h x).mpr (by simp [hx])) with rfl | h5
            · omega
            · exact h5

lemma insertSorted_addrs_nodup {rs : List ValuePair} {p : ValuePair}
    (h : (addrs rs).Nodup) (hn : ∀ q ∈ rs, q.addr ≠ p.addr) :
    (addrs (insertSorted rs p)).Nodup := by
  induction rs with
  | nil => simp [insertSorted, addrs]
  | cons q qs ih =>
      have h1 : q.addr ∉ addrs qs ∧ (addrs qs).Nodup := by
        simpa [addrs] using h
      simp only [insertSorted]
      split
      · simp only [addrs, List.map_cons, List.nodup_cons]
        refine ⟨?_, by simpa [addrs] using h⟩
        intro hc
        rcases List.mem_cons.mp hc with hc | hc
        · exact hn q (by simp) hc.symm
        · rcases List.mem_map.mp hc with ⟨x, hx, hxa⟩
          exact hn x (by simp [hx]) hxa
      · simp only [addrs, List.map_cons, List.nodup_cons]
        constructor
        · intro hc
          rcases List.mem_map.mp hc with ⟨x, hx, hxa⟩
          rcases (mem_insertSorted qs p x).mp hx with rfl | hx
          · exact hn q (by simp) hxa.symm
          · exact h1.1 (List.mem_map.mpr ⟨x, hx, hxa⟩)
        · exact ih h1.2 (fun w hw => hn w (by simp [hw]))

lemma insertPair_addrs_nodup (rs : List ValuePair) (p : ValuePair)
    (h : (addrs rs).Nodup) : (addrs (insertPair rs p)).Nodup := by
  unfold insertPair
  split
  next => exact h
  next hne =>
    apply insertSorted_addrs_nodup h
    intro q hq hqa
    apply hne
    exact List.any_eq_true.mpr ⟨q, hq, by simp [hqa]⟩

/-! Stride walks and page-range semantics. -/

lemma mem_strideList {a0 e step t : Nat} (hs : 0 < step) :
    t ∈ strideList a0 e step ↔ (∃ k, t = a0 + k * step) ∧ t < e := by
  unfold strideList
  simp only [List.mem_map, List.mem_range]
  constructor
  · rintro ⟨k, hk, rfl⟩
    refine ⟨⟨k, rfl⟩, ?_⟩
    have : k + 1 ≤ (e - a0 + step - 1) / step := hk
    have h2 : (k + 1) * step ≤ e - a0 + step - 1 :=
      (Nat.le_div_iff_mul_le hs).mp this
    have h3 : (k + 1) * step = k * step + step := by ring
    omega
  · rintro ⟨⟨k, rfl⟩, ht⟩
    refine ⟨k, ?_, rfl⟩
    have h2 : (k + 1) * step ≤ e - a0 + step - 1 := by
      have h3 : (k + 1) * step = k * step + step := by ring
      omega
    exact (Nat.le_div_iff_mul_le hs).mpr h2

lemma succRuns_inv (f : Nat → Bool) : ∀ n,
    (∀ r ∈ succRuns f n, r.1 < r.2 ∧ r.2 ≤ n ∧
      ∀ i, r.1 ≤ i → i < r.2 → f i = true) ∧
    (∀ i, i < n → f i = true → ∃ r ∈ succRuns f n, r.1 ≤ i ∧ i < r.2) := by
  intro n
  induction n with
  | zero =>
      constructor
      · intro r hr
        simp [succRuns] at hr
      · intro i hi
        omega
  | succ m ih =>
      rcases ih with ⟨S, C⟩
      by_cases hf : f m = true
      · cases hl : (succRuns f m).getLast? with
        | none =>
            have hnil : succRuns f m = [] := List.getLast?_eq_none_iff.mp hl
            have hrun : succRuns f (m + 1) = [(m, m + 1)] := by
              simp only [succRuns, hl, hf, if_pos]
            rw [hrun]
            constructor
            · intro r hr
              rcases List.mem_singleton.mp hr with rfl
              exact ⟨by omega, le_refl _, fun i h1 h2 => by
                have : i = m := by omega
                rw [this]
                exact hf⟩
            · intro i hi hfi
              rcases Nat.lt_or_ge i m with h | h
              · rcases C i h hfi with ⟨r, hr, _⟩
                rw [hnil] at hr
                cases hr
              · have : i = m := by omega
                exact ⟨(m, m + 1), by simp, by omega, by omega⟩
        | some se =>
            rcases se with ⟨s, e⟩
            have hmemo : (s, e) ∈ (succRuns f m).getLast? := by
              rw [hl]
              rfl
            have hmem : (s, e) ∈ succRuns f m := List.mem_of_mem_getLast? hmemo
            have hse := S _ hmem
            have hsplit : succRuns f m = (succRuns f m).dropLast ++ [(s, e)] :=
              (List.dropLast_append_getLast? _ hmemo).symm
            by_cases he : e = m
            · have hrun : succRuns f (m + 1) =
                  (succRuns f m).dropLast ++ [(s, m + 1)] := by
                simp only [succRuns, hl, hf, if_pos, he, if_pos rfl]
              rw [hrun]
              constructor
              · intro r hr
                rcases List.mem_append.mp hr with hr | hr
                · have hr2 : r ∈ succRuns f m := by
                    rw [hsplit]
                    exact List.mem_append.mpr (Or.inl hr)
                  have := S r hr2
                  exact ⟨this.1, by omega, this.2.2⟩
                · rcases List.mem_singleton.mp hr with rfl
                  refine ⟨by omega, le_refl _, ?_⟩
                  intro i h1 h2
                  rcases Nat.lt_or_ge i m with h | h
                  · exact hse.2.2 i h1 (by omega)
                  · have : i = m := by omega
                    rw [this]
                    exact hf
              · intro i hi hfi
                rcases Nat.lt_or_ge i m with h | h
                · rcases C i h hfi with ⟨r, hr, hri⟩
                  rw [hsplit] at hr
                  rcases List.mem_append.mp hr with hr | hr
                  · exact ⟨r, List.mem_append.mpr (Or.inl hr), hri⟩
                  · rcases List.mem_singleton.mp hr with rfl
                    exact ⟨(s, m + 1), List.mem_append.mpr (Or.inr (by simp)),
                      hri.1, by omega⟩
                · have : i = m := by omega
                  subst this
                  exact ⟨(s, i + 1), List.mem_append.mpr (Or.inr (by simp)),
                    by omega, by omega⟩
            · have hrun : succRuns f (m + 1) = succRuns f m ++ [(m, m + 1)] := by
                simp only [succRuns, hl, hf, if_pos, if_neg he]
              rw [hrun]
              constructor
              · intro r hr
                rcases List.mem_append.mp hr with hr | hr
                · have := S r hr
                  exact ⟨this.1, by omega, this.2.2⟩
                · rcases List.mem_singleton.mp hr with rfl
                  refine ⟨by omega, le_refl _, ?_⟩
                  intro i h1 h2
                  have : i = m := by omega
                  rw [this]
                  exact hf
              · intro i hi hfi
                rcases Nat.lt_or_ge i m with h | h
                · rcases C i h hfi with ⟨r, hr, hri⟩
                  exact ⟨r, List.mem_append.mpr (Or.inl hr), hri⟩
                · have : i = m := by omega
                  subst this
                  exact ⟨(i, i + 1), List.mem_append.mpr (Or.inr (by simp)),
                    by omega, by omega⟩
      · have hrun : succRuns f (m + 1) = succRuns f m := by
          simp only [succRuns, if_neg hf]
        rw [hrun]
        constructor
        · intro r hr
          have := S r hr
          exact ⟨this.1, by omega, this.2.2⟩
        · intro i hi hfi
          rcases Nat.lt_or_ge i m with h | h
          · exact C i h hfi
          · have : i = m := by omega
            subst this
            exact absurd hfi (by simp [hf])

lemma succRuns_all_true (n : Nat) (hn : 0 < n) :
    succRuns (fun _ => true) n = [(0, n)] := by
  induction n with
  | zero => omega
  | succ m ih =>
      rcases Nat.eq_zero_or_pos m with rfl | hm
      · rfl
      · have hrs := ih hm
        simp [succRuns, hrs]

lemma inSuccessRanges_iff (st : PageStatusBitmap) (bps a : Nat) :
    inSuccessRanges st bps a = true ↔
    ∃ i, st.is_page_success i = true ∧ bps + i * PAGE_SIZE ≤ a ∧
      a < bps + (i + 1) * PAGE_SIZE := by
  have hP : 0 < PAGE_SIZE := by norm_num [PAGE_SIZE]
  rcases succRuns_inv st.succ st.num_pages with ⟨S, C⟩
  unfold inSuccessRanges
  rw [List.any_eq_true]
  constructor
  · rintro ⟨r, hr, hra⟩
    have hra2 : bps + r.1 * PAGE_SIZE ≤ a ∧ a < bps + r.2 * PAGE_SIZE := by
      simpa using hra
    have hs := S r hr
    refine ⟨(a - bps) / PAGE_SIZE, ?_, ?_, ?_⟩
    · have hi1 : r.1 ≤ (a - bps) / PAGE_SIZE := by
        apply (Nat.le_div_iff_mul_le hP).mpr
        have := hra2.1
        have hmul : r.1 * PAGE_SIZE ≤ a - bps := by omega
        omega
      have hi2 : (a - bps) / PAGE_SIZE < r.2 := by
        have := hra2.2
        have hd := Nat.div_add_mod (a - bps) PAGE_SIZE
        by_contra hcon
        push_neg at hcon
        have h4 : r.2 * PAGE_SIZE ≤ ((a - bps) / PAGE_SIZE) * PAGE_SIZE :=
          Nat.mul_le_mul_right _ hcon
        have h5 : PAGE_SIZE * ((a - bps) / PAGE_SIZE) =
            ((a - bps) / PAGE_SIZE) * PAGE_SIZE := by ring
        omega
      unfold PageStatusBitmap.is_page_success
      have hfi := hs.2.2 _ hi1 hi2
      simp [hfi]
      omega
    · have hd := Nat.div_add_mod (a - bps) PAGE_SIZE
      have h5 : PAGE_SIZE * ((a - bps) / PAGE_SIZE) =
          ((a - bps) / PAGE_SIZE) * PAGE_SIZE := by ring
      have := hra2.1
      omega
    · have hd := Nat.div_add_mod (a - bps) PAGE_SIZE
      have hm := Nat.mod_lt (a - bps) hP
      have h5 : PAGE_SIZE * ((a - bps) / PAGE_SIZE) =
          ((a - bps) / PAGE_SIZE) * PAGE_SIZE := by ring
      have h6 : ((a - bps) / PAGE_SIZE + 1) * PAGE_SIZE =
          ((a - bps) / PAGE_SIZE) * PAGE_SIZE + PAGE_SIZE := by ring
      have := hra2.1
      omega
  · rintro ⟨i, hip, hia1, hia2⟩
    have hi : i < st.num_pages ∧ st.succ i = true := by
      unfold PageStatusBitmap.is_page_success at hip
      simpa using hip
    rcases C i hi.1 hi.2 with ⟨r, hr, hri⟩
    refine ⟨r, hr, ?_⟩
    simp only [decide_eq_true_eq]
    have h1 : r.1 * PAGE_SIZE ≤ i * PAGE_SIZE := Nat.mul_le_mul_right _ hri.1
    have h2 : (i + 1) * PAGE_SIZE ≤ r.2 * PAGE_SIZE := Nat.mul_le_mul_right _ hri.2
    omega

/-! Fold membership lemmas for the scanners. -/

lemma addrs_foldl_emit {β : Type} (g : β → List ValuePair)
    (h : List ValuePair → β → List ValuePair)
    (hb : ∀ r u, h r u = (g u).foldl insertPair r) (l : List β)
    (rs : List ValuePair) (a : Nat) :
    a ∈ addrs (l.foldl h rs) ↔ a ∈ addrs rs ∨ ∃ u ∈ l, ∃ p ∈ g u, p.addr = a := by
  induction l generalizing rs with
  | nil => simp
  | cons u l ih =>
      simp only [List.foldl_cons, hb, ih, addrs_foldl_insertPair]
      constructor
      · rintro (h1 | h1)
        · rcases h1 with h1 | ⟨p, hp, hpa⟩
          · exact Or.inl h1
          · exact Or.inr ⟨u, by simp, p, hp, hpa⟩
        · rcases h1 with ⟨t, ht, p, hp, hpa⟩
          exact Or.inr ⟨t, by simp [ht], p, hp, hpa⟩
      · rintro (h1 | ⟨t, ht, p, hp, hpa⟩)
        · exact Or.inl (Or.inl h1)
        · rcases List.mem_cons.mp ht with rfl | ht
          · exact Or.inl (Or.inr ⟨p, hp, hpa⟩)
          · exact Or.inr ⟨t, ht, p, hp, hpa⟩

lemma addrs_foldl_foldl_emit {α β : Type} (w : α → List β) (g : β → List ValuePair)
    (h : List ValuePair → β → List ValuePair)
    (hb : ∀ r u, h r u = (g u).foldl insertPair r) (l : List α)
    (rs : List ValuePair) (a : Nat) :
    a ∈ addrs (l.foldl (fun r t => (w t).foldl h r) rs) ↔
      a ∈ addrs rs ∨ ∃ t ∈ l, ∃ u ∈ w t, ∃ p ∈ g u, p.addr = a := by
  induction l generalizing rs with
  | nil => simp
  | cons t l ih =>
      simp only [List.foldl_cons, ih, addrs_foldl_emit g h hb]
      constructor
      · rintro (h1 | h1)
        · rcases h1 with h1 | ⟨u, hu, p, hp, hpa⟩
          · exact Or.inl h1
          · exact Or.inr ⟨t, by simp, u, hu, p, hp, hpa⟩
        · rcases h1 with ⟨t2, ht2, hrest⟩
          exact Or.inr ⟨t2, by simp [ht2], hrest⟩
      · rintro (h1 | ⟨t2, ht2, hrest⟩)
        · exact Or.inl (Or.inl h1)
        · rcases List.mem_cons.mp ht2 with rfl | ht2
          · exact Or.inl (Or.inr hrest)
          · exact Or.inr ⟨t2, ht2, hrest⟩

/-- Membership characterization of search_in_buffer_group: an address is in
the output iff it was already present or some anchor candidate (anchor path)
or some walked address of a successful page range (fallback path) emits it. -/
lemma addr_mem_scan (buffer : List Nat) (b rs_ re mes : Nat) (q : SearchQuery)
    (st : PageStatusBitmap) (init : List ValuePair) (x : Nat) :
    x ∈ addrs (search_in_buffer_group buffer b rs_ re mes q st init) ↔
      x ∈ addrs init ∨
      (match findAnchor q.values with
       | some (aidx, pat) =>
           st.get_success_page_ranges ≠ [] ∧
           ∃ o ∈ anchorCandidates pat buffer b (alignUp (max b rs_) mes)
               (min (b + buffer.length) re),
             ∃ p ∈ emitCandidate q aidx buffer b rs_ re st o, p.addr = x
       | none =>
           ∃ r ∈ st.get_success_page_ranges,
             ∃ t ∈ fallbackWalk buffer.length b (min (b + buffer.length) re)
                 (alignUp (max b rs_) mes) mes r,
               ∃ p ∈ fallbackEmits q buffer b (min (b + buffer.length) re) t,
                 p.addr = x) := by
  cases hfa : findAnchor q.values with
  | none =>
      simp only [search_in_buffer_group, search_in_buffer_group_fallback, hfa]
      by_cases hemp : st.get_success_page_ranges.isEmpty
      · rw [if_pos hemp]
        have : st.get_success_page_ranges = [] := List.isEmpty_iff.mp hemp
        simp [this]
      · rw [if_neg hemp]
        exact addrs_foldl_foldl_emit _ _ _ (fun r u => rfl) _ init x
  | some ap =>
      rcases ap with ⟨aidx, pat⟩
      simp only [search_in_buffer_group, hfa]
      by_cases hemp : st.get_success_page_ranges.isEmpty
      · rw [if_pos hemp]
        have : st.get_success_page_ranges = [] := List.isEmpty_iff.mp hemp
        simp [this]
      · rw [if_neg hemp]
        rw [addrs_foldl_emit (emitCandidate q aidx buffer b rs_ re st) _
          (fun r u => rfl) _ init x]
        have hne : st.get_success_page_ranges ≠ [] := by
          intro hc
          rw [hc] at hemp
          simp at hemp
        constructor
        · rintro (h | h)
          · exact Or.inl h
          · exact Or.inr ⟨hne, h⟩
        · rintro (h | ⟨_, h⟩)
          · exact Or.inl h
          · exact Or.inr h

/-! Validation anatomy of one anchor candidate and one fallback address. -/

lemma mem_emitCandidate_ordered {q : SearchQuery} (hm : q.mode = .ordered)
    (aidx : Nat) (buffer : List Nat) (b rs_ re : Nat) (st : PageStatusBitmap)
    (o : Nat) (p : ValuePair) :
    p ∈ emitCandidate q aidx buffer b rs_ re st o ↔
      (rs_ ≤ ordStart q aidx (b + o) ∧ ordStart q aidx (b + o) < re ∧
       inSuccessRanges st (pageFloor b) (ordStart q aidx (b + o)) = true ∧
       b ≤ ordStart q aidx (b + o) ∧
       (ordStart q aidx (b + o) - b) +
         (ordEnd q (ordStart q aidx (b + o)) (b + buffer.length) re -
          ordStart q aidx (b + o)) ≤ buffer.length ∧
       ∃ offs,
         try_match_ordered q (slice buffer (ordStart q aidx (b + o) - b)
           (ordEnd q (ordStart q aidx (b + o)) (b + buffer.length) re -
            ordStart q aidx (b + o))) = some offs ∧
         p ∈ emissionsOfMatch (ordStart q aidx (b + o)) q offs) := by
  unfold emitCandidate try_match_group_at_address
  simp only [hm, reduceIte, eq_self_iff_true, true_and]
  by_cases h1 : ordStart q aidx (b + o) < rs_ ∨ re ≤ ordStart q aidx (b + o)
  · rw [if_pos h1]
    constructor
    · intro h
      cases h
    · rintro ⟨ha, hb, _⟩
      exact absurd h1 (by omega)
  · rw [if_neg h1]
    by_cases h2 : inSuccessRanges st (pageFloor b) (ordStart q aidx (b + o)) = true
    · rw [if_neg (by simp [h2])]
      by_cases h3 : ordStart q aidx (b + o) < b
      · rw [if_pos h3]
        constructor
        · intro h
          cases h
        · rintro ⟨_, _, _, hb2, _⟩
          exact absurd h3 (by omega)
      · rw [if_neg h3]
        by_cases h4 : (ordStart q aidx (b + o) - b) +
            (ordEnd q (ordStart q aidx (b + o)) (b + buffer.length) re -
             ordStart q aidx (b + o)) ≤ buffer.length
        · rw [if_pos h4]
          cases htm : try_match_ordered q (slice buffer (ordStart q aidx (b + o) - b)
              (ordEnd q (ordStart q aidx (b + o)) (b + buffer.length) re -
               ordStart q aidx (b + o))) with
          | none =>
              constructor
              · intro h
                cases h
              · rintro ⟨_, _, h2b, _, _, offs, hoffs, _⟩
                cases hoffs
          | some offs =>
              constructor
              · intro h
                exact ⟨by omega, by omega, h2, by omega, h4, offs, rfl, h⟩
              · rintro ⟨_, _, _, _, _, offs2, hoffs2, hp⟩
                injection hoffs2 with he
                show p ∈ emissionsOfMatch (ordStart q aidx (b + o)) q offs
                rw [he]
                exact hp
        · rw [if_neg h4]
          constructor
          · intro h
            cases h
          · rintro ⟨_, _, _, _, h4b, _⟩
            exact absurd h4b h4
    · rw [if_pos (by simpa using h2)]
      constructor
      · intro h
        cases h
      · rintro ⟨_, _, h2b, _⟩
        exact absurd h2b h2

lemma mem_emitCandidate_unordered {q : SearchQuery} (hm : q.mode = .unordered)
    (aidx : Nat) (buffer : List Nat) (b rs_ re : Nat) (st : PageStatusBitmap)
    (o : Nat) (p : ValuePair)
    (h : p ∈ emitCandidate q aidx buffer b rs_ re st o) :
    rs_ ≤ b + o ∧ b + o < re ∧
    inSuccessRanges st (pageFloor b) (b + o) = true ∧
    ∃ offs,
      try_match_unordered q (slice buffer (max (b + o - q.range) b - b)
        (min (b + o + q.range) (min (b + buffer.length) re) -
         max (b + o - q.range) b)) = some offs ∧
      p ∈ emissionsOfMatch (max (b + o - q.range) b) q offs := by
  unfold emitCandidate try_match_group_at_address at h
  simp only [hm, reduceIte] at h
  simp only [show (SearchMode.unordered = SearchMode.ordered) = False from by simp,
    false_and, if_false] at h
  split at h
  next hreg => cases h
  next hreg =>
    split at h
    next hpage => cases h
    next hpage =>
      split at h
      next hwin =>
        split at h
        next offs htm =>
          exact ⟨by omega, by omega, by simpa using hpage, offs, htm, h⟩
        next htm => cases h
      next hwin => cases h

lemma mem_fallbackEmits {q : SearchQuery} (buffer : List Nat) (b se t : Nat)
    (p : ValuePair) (h : p ∈ fallbackEmits q buffer b se t) :
    t - b < buffer.length ∧
    q.range ≤ min (t + q.range) (min (b + buffer.length) se) - t ∧
    (t - b) + (min (t + q.range) (min (b + buffer.length) se) - t) ≤ buffer.length ∧
    ∃ offs,
      try_match_group_at_address q (slice buffer (t - b)
        (min (t + q.range) (min (b + buffer.length) se) - t)) = some offs ∧
      p ∈ emissionsOfMatch t q offs := by
  simp only [fallbackEmits] at h
  split at h
  next hoff =>
    split at h
    next hcond =>
      split at h
      next offs htm => exact ⟨hoff, hcond.1, hcond.2, offs, htm, h⟩
      next htm => cases h
    next hcond => cases h
  next hoff => cases h

lemma mem_fallbackEmits_iff {q : SearchQuery} (buffer : List Nat) (b se t : Nat)
    (p : ValuePair) :
    p ∈ fallbackEmits q buffer b se t ↔
      (t - b < buffer.length ∧
       q.range ≤ min (t + q.range) (min (b + buffer.length) se) - t ∧
       (t - b) + (min (t + q.range) (min (b + buffer.length) se) - t) ≤ buffer.length ∧
       ∃ offs,
         try_match_group_at_address q (slice buffer (t - b)
           (min (t + q.range) (min (b + buffer.length) se) - t)) = some offs ∧
         p ∈ emissionsOfMatch t q offs) := by
  constructor
  · exact mem_fallbackEmits buffer b se t p
  · rintro ⟨h1, h2, h3, offs, htm, hp⟩
    simp only [fallbackEmits]
    rw [if_pos h1, if_pos ⟨h2, h3⟩, htm]
    exact hp

lemma mem_emissionsOfMatch {base : Nat} {q : SearchQuery} {offs : List Nat}
    {p : ValuePair} :
    p ∈ emissionsOfMatch base q offs ↔
      ∃ po ∈ offs.zip q.values, p = ⟨base + po.1, po.2.value_type⟩ := by
  simp only [emissionsOfMatch, List.mem_map]
  constructor
  · rintro ⟨po, hpo, rfl⟩
    exact ⟨po, hpo, rfl⟩
  · rintro ⟨po, hpo, rfl⟩
    exact ⟨po, hpo, rfl⟩

lemma try_match_unordered_facts {q : SearchQuery} {w : List Nat} {offs : List Nat}
    (h : try_match_unordered q w = some offs) :
    offs.length = q.values.length ∧
    ∀ po ∈ offs.zip q.values, leastStride po.2 w 0 po.1 := by
  simp only [try_match_unordered] at h
  split at h
  next hall =>
    injection h with h
    subst h
    constructor
    · simp
    · intro po hpo
      rcases List.mem_iff_getElem.mp hpo with ⟨i, hi, hpo⟩
      have hi2 : i < q.values.length := by
        simp at hi
        omega
      rw [List.getElem_zip] at hpo
      have hgm : (q.values.map (fun v => matchFrom v w 0)).all Option.isSome = true := hall
      have hsome : (matchFrom (q.values[i]) w 0).isSome = true := by
        have := List.all_eq_true.mp hgm (matchFrom (q.values[i]) w 0)
          (List.mem_map.mpr ⟨q.values[i], by simp [hi2], rfl⟩)
        exact this
      rcases Option.isSome_iff_exists.mp hsome with ⟨x, hx⟩
      have h1 : po.1 = x := by
        rw [← hpo]
        simp only [List.getElem_map]
        rw [hx]
        rfl
      have h2 : po.2 = q.values[i] := by
        rw [← hpo]
      rw [h1, h2]
      exact (matchFrom_some_iff _ w 0 x).mp hx
  next => cases h

lemma try_match_group_emission_bounds {q : SearchQuery} {w : List Nat}
    {offs : List Nat} {base : Nat} {p : ValuePair}
    (htm : try_match_group_at_address q w = some offs)
    (hp : p ∈ emissionsOfMatch base q offs) :
    base ≤ p.addr ∧ p.addr + p.value_type.size ≤ base + w.length := by
  rcases mem_emissionsOfMatch.mp hp with ⟨po, hpo, rfl⟩
  unfold try_match_group_at_address at htm
  cases hmode : q.mode with
  | ordered =>
      rw [hmode] at htm
      have hg := (tmOrdered_some_iff q.values w 0 offs).mp htm
      rcases hg.zip_facts po hpo with ⟨h1, h2, h3⟩
      refine ⟨Nat.le_add_right base po.1, ?_⟩
      show base + po.1 + po.2.value_type.size ≤ base + w.length
      omega
  | unordered =>
      rw [hmode] at htm
      rcases (try_match_unordered_facts htm).2 po hpo with ⟨h1, h2, h3, h4⟩
      refine ⟨Nat.le_add_right base po.1, ?_⟩
      show base + po.1 + po.2.value_type.size ≤ base + w.length
      omega

lemma findAnchorAux_spec : ∀ (values : List SearchValue) (i aidx : Nat)
    (pat : List Nat), findAnchorAux values i = some (aidx, pat) →
    ∃ (j : Nat) (bytes : List Nat) (ty : ValueType),
      j < values.length ∧ aidx = i + j ∧
      (∀ (hj : j < values.length), values[j] = SearchValue.fixedInt bytes ty) ∧
      pat = bytes.take ty.size := by
  intro values
  induction values with
  | nil =>
      intro i aidx pat h
      cases h
  | cons v vs ih =>
      intro i aidx pat h
      cases v with
      | fixedInt bytes ty =>
          simp only [findAnchorAux] at h
          injection h with h
          injection h with h1 h2
          exact ⟨0, bytes, ty, by simp, by omega, fun _ => rfl, h2.symm⟩
      | rangeValue lo hi ty sg =>
          simp only [findAnchorAux] at h
          rcases ih (i + 1) aidx pat h with ⟨j, bytes, ty2, hj, haidx, hv, hpat⟩
          exact ⟨j + 1, bytes, ty2, by simpa using hj, by omega,
            fun hj2 => by simpa using hv (by omega), hpat⟩
      | wildcard ty =>
          simp only [findAnchorAux] at h
          rcases ih (i + 1) aidx pat h with ⟨j, bytes, ty2, hj, haidx, hv, hpat⟩
          exact ⟨j + 1, bytes, ty2, by simpa using hj, by omega,
            fun hj2 => by simpa using hv (by omega), hpat⟩

/-- The anchor pattern of a well-formed query has the anchor value's byte
size, the anchor value is in the list at index aidx, and the anchor index is
in bounds. -/
lemma findAnchor_spec {q : SearchQuery} {aidx : Nat} {pat : List Nat}
    (hw : q.wf) (h : findAnchor q.values = some (aidx, pat)) :
    aidx < q.values.length ∧
    ∀ (hj : aidx < q.values.length),
      pat.length = (q.values[aidx]).value_type.size ∧
      minElementSize q ∣ pat.length := by
  rcases findAnchorAux_spec q.values 0 aidx pat h with ⟨j, bytes, ty, hj, haidx, hv, hpat⟩
  have haj : aidx = j := by omega
  subst haj
  refine ⟨hj, fun hj2 => ?_⟩
  have hvj := hv hj
  have hwv := hw (q.values[aidx]) (List.getElem_mem hj)
  rw [hvj] at hwv
  have hlen : bytes.length = 8 := hwv.1
  have hsize : ty.size ≤ 8 := by cases ty <;> simp [ValueType.size]
  have hpl : pat.length = ty.size := by
    rw [hpat]
    simp [hlen]
    omega
  constructor
  · rw [hvj]
    simpa [SearchValue.value_type] using hpl
  · rw [hpl]
    have := minElementSize_dvd q (q.values[aidx]) (List.getElem_mem hj)
    rw [hvj] at this
    simpa [SearchValue.value_type] using this

lemma mem_anchorCandidates {pat buffer : List Nat} {b fa se o : Nat}
    (h : o ∈ anchorCandidates pat buffer b fa se) :
    o ∈ occurrences pat buffer ∧ (b + o) % pat.length = 0 ∧ fa ≤ b + o ∧ b + o < se := by
  unfold anchorCandidates at h
  rcases List.mem_filter.mp h with ⟨h1, h2⟩
  simp only [decide_eq_true_eq] at h2
  exact ⟨h1, h2.1, h2.2.1, h2.2.2⟩

lemma mem_anchorCandidates_iff {pat buffer : List Nat} {b fa se o : Nat} :
    o ∈ anchorCandidates pat buffer b fa se ↔
      o ∈ occurrences pat buffer ∧ (b + o) % pat.length = 0 ∧ fa ≤ b + o ∧ b + o < se := by
  constructor
  · exact mem_anchorCandidates
  · rintro ⟨h1, h2, h3, h4⟩
    exact List.mem_filter.mpr ⟨h1, by simp [h2, h3, h4]⟩

lemma mem_occurrences_iff {pat buffer : List Nat} {o : Nat} (_hp : 0 < pat.length) :
    o ∈ occurrences pat buffer ↔ o + pat.length ≤ buffer.length ∧
      slice buffer o pat.length = pat := by
  unfold occurrences
  rw [List.mem_filter, List.mem_range]
  constructor
  · rintro ⟨h1, h2⟩
    exact ⟨by omega, by simpa using h2⟩
  · rintro ⟨h1, h2⟩
    exact ⟨by omega, by simpa using h2⟩

lemma mem_fallbackWalk_iff {blen b se fa mes : Nat} {r : Nat × Nat} {t : Nat}
    (hmes : 0 < mes) :
    t ∈ fallbackWalk blen b se fa mes r ↔
      (¬ (min (pageFloor b + r.2 * PAGE_SIZE) (min se (b + blen)) ≤
          max (pageFloor b + r.1 * PAGE_SIZE) b) ∧
       (∃ k, t = (if max (pageFloor b + r.1 * PAGE_SIZE) b ≤ fa then fa
                  else alignUp (max (pageFloor b + r.1 * PAGE_SIZE) b) mes) + k * mes) ∧
       t < min (pageFloor b + r.2 * PAGE_SIZE) (min se (b + blen))) := by
  simp only [fallbackWalk]
  split
  next hle =>
      simp only [List.not_mem_nil, false_iff]
      rintro ⟨hne, _⟩
      exact hne hle
  next hle =>
      rw [mem_strideList hmes]
      constructor
      · rintro ⟨hk, ht⟩
        exact ⟨hle, hk, ht⟩
      · rintro ⟨_, hk, ht⟩
        exact ⟨hk, ht⟩

/-- Closure of the chunk driver under a per-scan preservation property: if
every search_in_buffer_group call whose initial set satisfies P on all
addresses only adds P-addresses, then the driver's final result satisfies P
everywhere. -/
lemma driver_addrs_closed {mem : Nat → Nat} {pageOk : Nat → Bool} {q : SearchQuery}
    {start endA chunk : Nat} (P : Nat → Prop)
    (hP : ∀ (buffer : List Nat) (b2 re2 : Nat) (st2 : PageStatusBitmap)
      (init : List ValuePair) (x : Nat), (∀ y ∈ addrs init, P y) →
      x ∈ addrs (search_in_buffer_group buffer b2 start re2 (minElementSize q) q st2 init) →
      P x) :
    ∀ x ∈ addrs (search_region_group mem pageOk q start endA chunk), P x := by
  unfold search_region_group
  have key : ∀ (l : List Nat) (st : ScanState), (∀ y ∈ addrs st.results, P y) →
      ∀ x ∈ addrs (l.foldl (chunkStep mem pageOk q start endA chunk) st).results, P x := by
    intro l
    induction l with
    | nil => intro st hst x hx; exact hst x hx
    | cons i l ih =>
        intro st hst x hx
        refine ih (chunkStep mem pageOk q start endA chunk st i) ?_ x hx
        intro y hy
        simp only [chunkStep] at hy
        split at hy
        · split at hy
          · exact hP _ _ _ _ _ y hst hy
          · split at hy
            · exact hP _ _ _ _ _ y hst hy
            · exact hP _ _ _ _ _ y hst hy
        · exact hst y hy
  intro x hx
  exact key _ ⟨[], true, false⟩ (by intro y hy; cases hy) x hx

/-- The sum of the value sizes before any index is divisible by the minimum
element size. -/
lemma presizeAt_dvd (q : SearchQuery) (k : Nat) :
    minElementSize q ∣ presizeAt q.values k := by
  unfold presizeAt
  refine List.dvd_sum ?_
  intro x hx
  rcases List.mem_map.mp hx with ⟨v, hv, rfl⟩
  exact minElementSize_dvd q v (List.mem_of_mem_take hv)

/-! Shift lemmas for the greedy matcher: dropping a prefix of the window moves
every cursor and offset down uniformly. -/

lemma slice_of_drop (buf : List Nat) (s p n : Nat) :
    slice (buf.drop s) p n = slice buf (s + p) n := by
  simp [slice, List.drop_drop]

lemma drop_slice (buf : List Nat) (u n s : Nat) :
    (slice buf u n).drop s = slice buf (u + s) (n - s) := by
  apply List.ext_getElem
  · simp [slice]
    omega
  · intro i h1 h2
    simp only [slice, List.getElem_drop, List.getElem_take]
    congr 1
    omega

lemma leastStride_shift_down {v : SearchValue} {buf : List Nat} {c o s : Nat}
    (hs : s ≤ c) (h : leastStride v buf c o) :
    leastStride v (buf.drop s) (c - s) (o - s) := by
  rcases h with ⟨h1, h2, h3, h4, h5⟩
  have hso : s ≤ o := le_trans hs h1
  refine ⟨by omega, ?_, ?_, ?_, ?_⟩
  · have he : (o - s) - (c - s) = o - c := by omega
    rw [he]
    exact h2
  · rw [List.length_drop]
    omega
  · have he : slice (buf.drop s) (o - s) v.value_type.size =
        slice buf (s + (o - s)) v.value_type.size := slice_of_drop buf s (o - s) _
    have he2 : s + (o - s) = o := by omega
    rw [he, he2]
    exact h4
  · intro p hp1 hp2 hp3
    have he : slice (buf.drop s) p v.value_type.size =
        slice buf (s + p) v.value_type.size := slice_of_drop buf s p _
    rw [he]
    refine h5 (s + p) (by omega) (by omega) ?_
    have he2 : (s + p) - c = p - (c - s) := by omega
    rw [he2]
    exact hp3

lemma GreedyOrd.shift_down {buf : List Nat} {vs : List SearchValue} {c : Nat}
    {os : List Nat} (h : GreedyOrd buf vs c os) :
    ∀ s, s ≤ c → GreedyOrd (buf.drop s) vs (c - s) (os.map (fun x => x - s)) := by
  induction h with
  | nil =>
      intro s _
      exact GreedyOrd.nil _
  | cons h1 h2 ih =>
      rename_i v vs c o os
      intro s hs
      simp only [List.map_cons]
      refine GreedyOrd.cons (leastStride_shift_down hs h1) ?_
      have hco : c ≤ o := h1.1
      have ih2 := ih s (by omega)
      have he : o + v.value_type.size - s = (o - s) + v.value_type.size := by omega
      rw [he] at ih2
      exact ih2

/-- Membership characterization of the fallback scanner alone. -/
lemma addr_mem_fallback_scan (buffer : List Nat) (b rs_ re mes : Nat)
    (q : SearchQuery) (st : PageStatusBitmap) (init : List ValuePair) (x : Nat) :
    x ∈ addrs (search_in_buffer_group_fallback buffer b rs_ re mes q st init) ↔
      x ∈ addrs init ∨
      ∃ r ∈ st.get_success_page_ranges,
        ∃ t ∈ fallbackWalk buffer.length b (min (b + buffer.length) re)
            (alignUp (max b rs_) mes) mes r,
          ∃ p ∈ fallbackEmits q buffer b (min (b + buffer.length) re) t,
            p.addr = x := by
  simp only [search_in_buffer_group_fallback]
  by_cases hemp : st.get_success_page_ranges.isEmpty
  · rw [if_pos hemp]
    have : st.get_success_page_ranges = [] := List.isEmpty_iff.mp hemp
    simp [this]
  · rw [if_neg hemp]
    exact addrs_foldl_foldl_emit _ _ _ (fun r u => rfl) _ init x

/-! All-success page bitmaps: every address of the covered extent passes the
page check and is visited by the fallback walk at its alignment. -/

lemma inSuccessRanges_of_allSucc {st : PageStatusBitmap} {b L : Nat}
    (hbase : st.base = b) (hlen : st.len = L) (hall : st.allSucc)
    {a : Nat} (h1 : b ≤ a) (h2 : a < b + L) :
    inSuccessRanges st (pageFloor b) a = true := by
  have hnp : st.num_pages = (b % PAGE_SIZE + L + PAGE_SIZE - 1) / PAGE_SIZE := by
    unfold PageStatusBitmap.num_pages
    rw [hbase, hlen]
  have hia : (a - pageFloor b) / PAGE_SIZE < st.num_pages := by
    rw [hnp]
    simp only [pageFloor, PAGE_SIZE]
    omega
  refine (inSuccessRanges_iff st (pageFloor b) a).mpr
    ⟨(a - pageFloor b) / PAGE_SIZE, ?_, ?_, ?_⟩
  · unfold PageStatusBitmap.is_page_success
    rw [Bool.and_eq_true, decide_eq_true_eq]
    exact ⟨hia, hall _ hia⟩
  · simp only [pageFloor, PAGE_SIZE]
    omega
  · simp only [pageFloor, PAGE_SIZE]
    omega

lemma walk_mem_of_allSucc {st : PageStatusBitmap} {b L : Nat}
    (hbase : st.base = b) (hlen : st.len = L) (hall : st.allSucc)
    {se fa d a : Nat} (hd : 0 < d) (hse : se ≤ b + L)
    (hb : b ≤ a) (hfa : fa ≤ a) (ha : a < se) (hdvd : d ∣ a) (hdfa : d ∣ fa) :
    ∃ r ∈ st.get_success_page_ranges, a ∈ fallbackWalk L b se fa d r := by
  have hnp : st.num_pages = (b % PAGE_SIZE + L + PAGE_SIZE - 1) / PAGE_SIZE := by
    unfold PageStatusBitmap.num_pages
    rw [hbase, hlen]
  have hia : (a - pageFloor b) / PAGE_SIZE < st.num_pages := by
    rw [hnp]
    simp only [pageFloor, PAGE_SIZE]
    omega
  obtain ⟨r, hr, hri⟩ :=
    (succRuns_inv st.succ st.num_pages).2 ((a - pageFloor b) / PAGE_SIZE) hia
      (hall _ hia)
  refine ⟨r, hr, ?_⟩
  rw [mem_fallbackWalk_iff hd]
  simp only [pageFloor, PAGE_SIZE] at hri ⊢
  refine ⟨by omega, ?_, by omega⟩
  by_cases hif : max (b / 4096 * 4096 + r.1 * 4096) b ≤ fa
  · rw [if_pos hif]
    refine ⟨(a - fa) / d, ?_⟩
    rw [Nat.div_mul_cancel (Nat.dvd_sub' hdvd hdfa)]
    omega
  · rw [if_neg hif]
    have hle : max (b / 4096 * 4096 + r.1 * 4096) b ≤ a := by omega
    have ha0 : alignUp (max (b / 4096 * 4096 + r.1 * 4096) b) d ≤ a :=
      alignUp_le hd hle hdvd
    have hda0 : d ∣ alignUp (max (b / 4096 * 4096 + r.1 * 4096) b) d :=
      alignUp_dvd hd
    refine ⟨(a - alignUp (max (b / 4096 * 4096 + r.1 * 4096) b) d) / d, ?_⟩
    rw [Nat.div_mul_cancel (Nat.dvd_sub' hdvd hda0)]
    omega

/-! Page bitmap marking: marks only set flags, so fold results stay marked. -/

lemma foldl_mark_base (l : List Nat) : ∀ c : PageStatusBitmap,
    (l.foldl PageStatusBitmap.mark_success c).base = c.base := by
  induction l with
  | nil => intro c; rfl
  | cons i l ih => intro c; exact ih _

lemma foldl_mark_len (l : List Nat) : ∀ c : PageStatusBitmap,
    (l.foldl PageStatusBitmap.mark_success c).len = c.len := by
  induction l with
  | nil => intro c; rfl
  | cons i l ih => intro c; exact ih _

lemma foldl_mark_mono (l : List Nat) : ∀ (c : PageStatusBitmap) (j : Nat),
    c.succ j = true → (l.foldl PageStatusBitmap.mark_success c).succ j = true := by
  induction l with
  | nil => intro c j h; exact h
  | cons i l ih =>
      intro c j h
      refine ih _ j ?_
      show (if j = i then true else c.succ j) = true
      split
      · rfl
      · exact h

lemma foldl_mark_of_lt : ∀ (m : Nat) (c : PageStatusBitmap) (j : Nat), j < m →
    ((List.range m).foldl PageStatusBitmap.mark_success c).succ j = true := by
  intro m
  induction m with
  | zero => intro c j h; omega
  | succ m ih =>
      intro c j h
      rw [List.range_succ, List.foldl_append]
      simp only [List.foldl_cons, List.foldl_nil]
      rcases Nat.lt_or_ge j m with hj | hj
      · have hih := ih c j hj
        show (if j = m then true
              else ((List.range m).foldl PageStatusBitmap.mark_success c).succ j) = true
        split
        · rfl
        · exact hih
      · have hjm : j = m := by omega
        subst hjm
        show (if j = j then true
              else ((List.range j).foldl PageStatusBitmap.mark_success c).succ j) = true
        simp

lemma foldl_cond_base (f : Nat → Bool) (po : Nat) (l : List Nat) :
    ∀ c : PageStatusBitmap,
    (l.foldl (fun acc i => if f i && decide (po + i < acc.num_pages)
        then acc.mark_success (po + i) else acc) c).base = c.base := by
  induction l with
  | nil => intro c; rfl
  | cons i l ih =>
      intro c
      simp only [List.foldl_cons]
      rw [ih]
      split
      · rfl
      · rfl

lemma foldl_cond_len (f : Nat → Bool) (po : Nat) (l : List Nat) :
    ∀ c : PageStatusBitmap,
    (l.foldl (fun acc i => if f i && decide (po + i < acc.num_pages)
        then acc.mark_success (po + i) else acc) c).len = c.len := by
  induction l with
  | nil => intro c; rfl
  | cons i l ih =>
      intro c
      simp only [List.foldl_cons]
      rw [ih]
      split
      · rfl
      · rfl

lemma foldl_cond_num_pages (f : Nat → Bool) (po : Nat) (l : List Nat)
    (c : PageStatusBitmap) :
    (l.foldl (fun acc i => if f i && decide (po + i < acc.num_pages)
        then acc.mark_success (po + i) else acc) c).num_pages = c.num_pages := by
  have hnp : ∀ st : PageStatusBitmap,
      st.num_pages = (st.base % PAGE_SIZE + st.len + PAGE_SIZE - 1) / PAGE_SIZE :=
    fun _ => rfl
  rw [hnp, hnp, foldl_cond_base f po l c, foldl_cond_len f po l c]

lemma foldl_cond_mono (f : Nat → Bool) (po : Nat) (l : List Nat) :
    ∀ (c : PageStatusBitmap) (j : Nat), c.succ j = true →
    (l.foldl (fun acc i => if f i && decide (po + i < acc.num_pages)
        then acc.mark_success (po + i) else acc) c).succ j = true := by
  induction l with
  | nil => intro c j h; exact h
  | cons i l ih =>
      intro c j h
      simp only [List.foldl_cons]
      refine ih _ j ?_
      split
      · show (if j = po + i then true else c.succ j) = true
        split
        · rfl
        · exact h
      · exact h

lemma foldl_cond_hits (f : Nat → Bool) (po : Nat) :
    ∀ (l : List Nat) (c : PageStatusBitmap) (i0 : Nat), i0 ∈ l → f i0 = true →
    po + i0 < c.num_pages →
    (l.foldl (fun acc i => if f i && decide (po + i < acc.num_pages)
        then acc.mark_success (po + i) else acc) c).succ (po + i0) = true := by
  intro l
  induction l with
  | nil => intro c i0 h; cases h
  | cons i l ih =>
      intro c i0 hmem hf hlt
      simp only [List.foldl_cons]
      rcases List.mem_cons.mp hmem with rfl | hmem
      · have hcond : (f i0 && decide (po + i0 < c.num_pages)) = true := by
          simp [hf, hlt]
        rw [if_pos hcond]
        refine foldl_cond_mono f po l _ _ ?_
        show (if po + i0 = po + i0 then true else c.succ (po + i0)) = true
        simp
      · refine ih _ i0 hmem hf ?_
        have hpres : (if f i && decide (po + i < c.num_pages)
            then c.mark_success (po + i) else c).num_pages = c.num_pages := by
          split
          · rfl
          · rfl
        rw [hpres]
        exact hlt

/-! The combined overlap status of the chunk driver, under an all-success
reader: every page of the overlap view is successful, part by the blanket
marking of the overlap prefix and part by the remapped chunk pages. -/

lemma combinedStatusOf_base (ps : PageStatusBitmap) (ol osa sr cur : Nat) :
    (combinedStatusOf ps ol osa sr cur).base = osa := by
  simp only [combinedStatusOf]
  rw [foldl_cond_base, foldl_mark_base]
  rfl

lemma combinedStatusOf_len (ps : PageStatusBitmap) (ol osa sr cur : Nat) :
    (combinedStatusOf ps ol osa sr cur).len = ol := by
  simp only [combinedStatusOf]
  rw [foldl_cond_len, foldl_mark_len]
  rfl

lemma combinedStatusOf_allSucc (pageOk : Nat → Bool) (hall : ∀ p, pageOk p = true)
    (cur len rng : Nat) (hrc : rng ≤ cur) :
    (combinedStatusOf (readStatus pageOk cur len) (rng + len) (cur - rng) rng
      cur).allSucc := by
  intro j hj
  unfold PageStatusBitmap.num_pages at hj
  rw [combinedStatusOf_base, combinedStatusOf_len] at hj
  have hj' : j < ((cur - rng) % 4096 + (rng + len) + 4096 - 1) / 4096 := hj
  simp only [combinedStatusOf]
  by_cases hblank : j < ((cur - rng) + rng + PAGE_SIZE - 1) / PAGE_SIZE -
      (cur - rng) / PAGE_SIZE
  · exact foldl_cond_mono _ _ _ _ _ (foldl_mark_of_lt _ _ _ hblank)
  · have hblank' : ¬ (j < ((cur - rng) + rng + 4096 - 1) / 4096 -
        (cur - rng) / 4096) := hblank
    have hpoj : (cur / 4096 * 4096 - (cur - rng) / 4096 * 4096) / 4096 ≤ j := by
      omega
    have hj2' : j - (cur / 4096 * 4096 - (cur - rng) / 4096 * 4096) / 4096 <
        (cur % 4096 + len + 4096 - 1) / 4096 := by
      omega
    have hj2 : j - (pageFloor cur - pageFloor (cur - rng)) / PAGE_SIZE <
        (readStatus pageOk cur len).num_pages := hj2'
    have hf : (readStatus pageOk cur len).is_page_success
        (j - (pageFloor cur - pageFloor (cur - rng)) / PAGE_SIZE) = true := by
      unfold PageStatusBitmap.is_page_success
      rw [Bool.and_eq_true, decide_eq_true_eq]
      exact ⟨hj2, hall _⟩
    have hnp1 : (pageFloor cur - pageFloor (cur - rng)) / PAGE_SIZE +
        (j - (pageFloor cur - pageFloor (cur - rng)) / PAGE_SIZE) <
        ((List.range (((cur - rng) + rng + PAGE_SIZE - 1) / PAGE_SIZE -
          (cur - rng) / PAGE_SIZE)).foldl PageStatusBitmap.mark_success
          (PageStatusBitmap.new (rng + len) (cur - rng))).num_pages := by
      unfold PageStatusBitmap.num_pages
      rw [foldl_mark_base, foldl_mark_len]
      show (cur / 4096 * 4096 - (cur - rng) / 4096 * 4096) / 4096 +
        (j - (cur / 4096 * 4096 - (cur - rng) / 4096 * 4096) / 4096) <
        ((cur - rng) % 4096 + (rng + len) + 4096 - 1) / 4096
      omega
    have hres := foldl_cond_hits (readStatus pageOk cur len).is_page_success
      ((pageFloor cur - pageFloor (cur - rng)) / PAGE_SIZE)
      (List.range (readStatus pageOk cur len).num_pages) _
      (j - (pageFloor cur - pageFloor (cur - rng)) / PAGE_SIZE)
      (List.mem_range.mpr hj2) hf hnp1
    have hjpo : (pageFloor cur - pageFloor (cur - rng)) / PAGE_SIZE +
        (j - (pageFloor cur - pageFloor (cur - rng)) / PAGE_SIZE) = j := by
      show (cur / 4096 * 4096 - (cur - rng) / 4096 * 4096) / 4096 +
        (j - (cur / 4096 * 4096 - (cur - rng) / 4096 * 4096) / 4096) = j
      omega
    rw [hjpo] at hres
    exact hres

lemma readStatus_allSucc (pageOk : Nat → Bool) (hall : ∀ p, pageOk p = true)
    (cur len : Nat) : (readStatus pageOk cur len).allSucc :=
  fun _ _ => hall _

lemma readStatus_success_count_pos (pageOk : Nat → Bool) (hall : ∀ p, pageOk p = true)
    (cur len : Nat) (hlen : 0 < len) :
    0 < (readStatus pageOk cur len).success_count := by
  unfold PageStatusBitmap.success_count
  have hfilter : (List.range (readStatus pageOk cur len).num_pages).filter
      (fun i => (readStatus pageOk cur len).succ i) =
      List.range (readStatus pageOk cur len).num_pages := by
    refine List.filter_eq_self.mpr ?_
    intro a _
    exact hall _
  rw [hfilter, List.length_range]
  show 0 < (cur % PAGE_SIZE + len + PAGE_SIZE - 1) / PAGE_SIZE
  simp only [PAGE_SIZE]
  omega

/-- Membership added by one buffer scan of the chunk driver, in memory-level
terms: for an ordered query led by its FixedInt anchor, over an all-success
status covering exactly [B, E), the scan adds s + offset for every aligned
anchor occurrence s at or after start whose greedy match succeeds on the
window [s, min(s + range, E)). -/
lemma scan_chunk_iff (mem : Nat → Nat) (q : SearchQuery) (bytes : List Nat)
    (ty : ValueType) (vs : List SearchValue)
    (hq : q.values = SearchValue.fixedInt bytes ty :: vs)
    (hw : q.wf) (hm : q.mode = SearchMode.ordered) (hsz : sizesSum q ≤ q.range)
    (B E start : Nat) (st : PageStatusBitmap) (init : List ValuePair)
    (hBE : B < E) (hstb : st.base = B) (hstl : st.len = E - B)
    (hsall : st.allSucc) :
    ∀ x, x ∈ addrs (search_in_buffer_group (memSlice mem B (E - B)) B start E
        (minElementSize q) q st init) ↔
      (x ∈ addrs init ∨
       ∃ s offs, B ≤ s ∧ start ≤ s ∧ s < E ∧ s + ty.size ≤ E ∧ ty.size ∣ s ∧
         memSlice mem s ty.size = bytes.take ty.size ∧
         try_match_ordered q (memSlice mem s (min (s + q.range) E - s)) = some offs ∧
         ∃ po ∈ offs.zip q.values, x = s + po.1) := by
  have hd0 : 0 < ty.size := ValueType.size_pos ty
  have hfa_find : findAnchor q.values = some (0, bytes.take ty.size) := by
    rw [hq]
    rfl
  have hb8 : bytes.length = 8 := by
    have hwv := hw (SearchValue.fixedInt bytes ty)
      (by rw [hq]; exact List.mem_cons_self _ _)
    exact hwv.1
  have hty8 : ty.size ≤ 8 := by cases ty <;> simp [ValueType.size]
  have hpatlen : (bytes.take ty.size).length = ty.size := by
    rw [List.length_take, hb8]
    omega
  have hmes0 : 0 < minElementSize q := minElementSize_pos q
  have hmesd : minElementSize q ∣ ty.size := by
    have := minElementSize_dvd q (SearchValue.fixedInt bytes ty)
      (by rw [hq]; exact List.mem_cons_self _ _)
    simpa [SearchValue.value_type] using this
  have hnp : 0 < st.num_pages := by
    unfold PageStatusBitmap.num_pages
    rw [hstb, hstl]
    simp only [PAGE_SIZE]
    omega
  have hne : st.get_success_page_ranges ≠ [] := by
    obtain ⟨r, hr, -⟩ := (succRuns_inv st.succ st.num_pages).2 0 hnp (hsall 0 hnp)
    intro hc
    unfold PageStatusBitmap.get_success_page_ranges at hc
    rw [hc] at hr
    cases hr
  intro x
  rw [addr_mem_scan]
  simp only [hfa_find]
  have hse : min (B + (memSlice mem B (E - B)).length) E = E := by
    rw [memSlice_length]
    omega
  rw [hse]
  constructor
  · rintro (h0 | ⟨-, o, ho, p, hp, hpx⟩)
    · exact Or.inl h0
    · right
      rcases mem_anchorCandidates ho with ⟨hocc, hmod, hfa_le, hlt_se⟩
      rw [hpatlen] at hmod
      rw [mem_occurrences_iff (by rw [hpatlen]; exact hd0), hpatlen,
        memSlice_length] at hocc
      rcases hocc with ⟨hocc1, hocc2⟩
      have hocc2' : memSlice mem (B + o) ty.size = bytes.take ty.size := by
        rw [← slice_memSlice (by omega : o + ty.size ≤ E - B)]
        exact hocc2
      rcases (mem_emitCandidate_ordered hm 0 (memSlice mem B (E - B)) B start E st
        o p).mp hp with ⟨-, -, -, -, -, offs, htm, hpe⟩
      have hs_eq : ordStart q 0 (B + o) = B + o := by
        simp [ordStart, presizeAt]
      rw [hs_eq] at htm hpe
      rw [memSlice_length, show B + (E - B) = E from by omega] at htm
      have hord : ordEnd q (B + o) E E = min ((B + o) + q.range) E := by
        unfold ordEnd
        rw [Nat.max_eq_right hsz, Nat.min_self]
      rw [hord] at htm
      have hwin : slice (memSlice mem B (E - B)) (B + o - B)
          (min ((B + o) + q.range) E - (B + o)) =
          memSlice mem (B + o) (min ((B + o) + q.range) E - (B + o)) := by
        rw [slice_memSlice (by omega)]
        congr 1
        omega
      rw [hwin] at htm
      have halign : max B start ≤ alignUp (max B start) (minElementSize q) :=
        alignUp_ge hmes0 _
      rcases mem_emissionsOfMatch.mp hpe with ⟨po, hpo, rfl⟩
      exact ⟨B + o, offs, by omega, by omega, hlt_se, by omega,
        Nat.dvd_of_mod_eq_zero hmod, hocc2', htm, po, hpo, hpx.symm⟩
  · rintro (h0 | ⟨s, offs, hBs, hss, hsE, hsd, hdvd, hocc, htm, po, hpo, hxeq⟩)
    · exact Or.inl h0
    · right
      have hBo : B + (s - B) = s := by omega
      refine ⟨hne, s - B, ?_, ⟨s + po.1, po.2.value_type⟩, ?_, hxeq.symm⟩
      · rw [mem_anchorCandidates_iff, hpatlen, hBo]
        refine ⟨?_, Nat.mod_eq_zero_of_dvd hdvd, ?_, hsE⟩
        · rw [mem_occurrences_iff (by rw [hpatlen]; exact hd0), hpatlen,
            memSlice_length]
          refine ⟨by omega, ?_⟩
          rw [slice_memSlice (by omega : (s - B) + ty.size ≤ E - B), hBo]
          exact hocc
        · exact alignUp_le hmes0 (by omega) (dvd_trans hmesd hdvd)
      · rw [mem_emitCandidate_ordered hm 0 (memSlice mem B (E - B)) B start E st
          (s - B) _]
        have hs_eq2 : ordStart q 0 (B + (s - B)) = s := by
          unfold ordStart
          simp [presizeAt]
          omega
        rw [hs_eq2, memSlice_length, show B + (E - B) = E from by omega]
        have hord2 : ordEnd q s E E = min (s + q.range) E := by
          unfold ordEnd
          rw [Nat.max_eq_right hsz, Nat.min_self]
        rw [hord2]
        have hwin2 : slice (memSlice mem B (E - B)) (s - B)
            (min (s + q.range) E - s) =
            memSlice mem s (min (s + q.range) E - s) := by
          rw [slice_memSlice (by omega), hBo]
        rw [hwin2]
        refine ⟨by omega, by omega, ?_, by omega, by omega, offs, htm,
          mem_emissionsOfMatch.mpr ⟨po, hpo, rfl⟩⟩
        exact inSuccessRanges_of_allSucc hstb hstl hsall (by omega) (by omega)

/-- Membership of the chunked driver run, chunk-size independently: under an
all-success reader, for an ordered query led by its FixedInt anchor and with
sum of sizes at most range ≤ chunk, an address is in the run's result set iff
some aligned anchor occurrence s in [start, endA) matches greedily on the
window [s, min(s + range, endA)) and emits it.  The right-hand side does not
mention the chunk size. -/
lemma run_iff_global (mem : Nat → Nat) (pageOk : Nat → Bool) (q : SearchQuery)
    (bytes : List Nat) (ty : ValueType) (vs : List SearchValue)
    (start endA c : Nat)
    (hq : q.values = SearchValue.fixedInt bytes ty :: vs)
    (hw : q.wf) (hm : q.mode = SearchMode.ordered) (hsz : sizesSum q ≤ q.range)
    (hall : ∀ p, pageOk p = true) (hc : q.range ≤ c) :
    ∀ x, x ∈ addrs (search_region_group mem pageOk q start endA c) ↔
      ∃ s offs, start ≤ s ∧ s < endA ∧ s + ty.size ≤ endA ∧ ty.size ∣ s ∧
        memSlice mem s ty.size = bytes.take ty.size ∧
        try_match_ordered q
          (memSlice mem s (min (s + q.range) endA - s)) = some offs ∧
        ∃ po ∈ offs.zip q.values, x = s + po.1 := by
  have htys : 0 < ty.size := ValueType.size_pos ty
  have hsum : sizesSum q = ty.size + (vs.map (fun u => u.value_type.size)).sum := by
    simp [sizesSum, hq, SearchValue.value_type]
  have hr0 : 0 < q.range := by omega
  have hc0 : 0 < c := by omega
  have hpf : pageFloor start ≤ start := by
    simp only [pageFloor, PAGE_SIZE]
    omega
  have key : ∀ m, m ≤ (endA - pageFloor start + c - 1) / c →
      (0 < m → ((List.range m).foldl (chunkStep mem pageOk q start endA c)
          ⟨[], true, false⟩).is_first = false ∧
        ((List.range m).foldl (chunkStep mem pageOk q start endA c)
          ⟨[], true, false⟩).prev_valid = true) ∧
      ∀ x, x ∈ addrs ((List.range m).foldl (chunkStep mem pageOk q start endA c)
          ⟨[], true, false⟩).results ↔
        ∃ i, i < m ∧ ∃ s offs,
          (if i = 0 then pageFloor start
           else pageFloor start + i * c - q.range) ≤ s ∧
          start ≤ s ∧ s < min (pageFloor start + i * c + c) endA ∧
          s + ty.size ≤ min (pageFloor start + i * c + c) endA ∧ ty.size ∣ s ∧
          memSlice mem s ty.size = bytes.take ty.size ∧
          try_match_ordered q (memSlice mem s
            (min (s + q.range) (min (pageFloor start + i * c + c) endA) - s)) =
            some offs ∧
          ∃ po ∈ offs.zip q.values, x = s + po.1 := by
    intro m
    induction m with
    | zero =>
        intro _
        refine ⟨by omega, ?_⟩
        intro x
        constructor
        · intro hx
          simp [addrs] at hx
        · rintro ⟨i, hi, -⟩
          omega
    | succ m ih =>
        intro hm1
        have ihm := ih (by omega)
        rw [List.range_succ, List.foldl_append]
        simp only [List.foldl_cons, List.foldl_nil]
        have hmn : m < (endA - pageFloor start + c - 1) / c := by omega
        have h1 : (m + 1) * c ≤ endA - pageFloor start + c - 1 :=
          (Nat.le_div_iff_mul_le hc0).mp hmn
        have h2 : (m + 1) * c = m * c + c := by ring
        have hcurlt : pageFloor start + m * c < endA := by omega
        have hlen : 0 < min (pageFloor start + m * c + c) endA -
            (pageFloor start + m * c) := by omega
        have hsucc : 0 < (readStatus pageOk (pageFloor start + m * c)
            (min (pageFloor start + m * c + c) endA -
             (pageFloor start + m * c))).success_count :=
          readStatus_success_count_pos pageOk hall _ _ hlen
        simp only [chunkStep]
        rw [if_pos hsucc]
        rcases Nat.eq_zero_or_pos m with rfl | hm0
        · have hstm0 : (List.range 0).foldl (chunkStep mem pageOk q start endA c)
              (⟨[], true, false⟩ : ScanState) = ⟨[], true, false⟩ := by
            simp
          rw [hstm0]
          rw [if_pos rfl]
          refine ⟨fun _ => ⟨rfl, rfl⟩, ?_⟩
          intro x
          have hscan := scan_chunk_iff mem q bytes ty vs hq hw hm hsz
            (pageFloor start + 0 * c) (min (pageFloor start + 0 * c + c) endA)
            start
            (readStatus pageOk (pageFloor start + 0 * c)
              (min (pageFloor start + 0 * c + c) endA - (pageFloor start + 0 * c)))
            [] (by omega) rfl rfl (readStatus_allSucc pageOk hall _ _) x
          constructor
          · intro hx
            rcases hscan.mp hx with h0 | ⟨s, offs, hB, hs2, hs3, hs4, hs5, hs6,
              hs7, hrest⟩
            · simp [addrs] at h0
            · refine ⟨0, by omega, s, offs, ?_, hs2, hs3, hs4, hs5, hs6, hs7, hrest⟩
              rw [if_pos rfl]
              omega
          · rintro ⟨i, hi, s, offs, hB, hs2, hs3, hs4, hs5, hs6, hs7, hrest⟩
            have hi0 : i = 0 := by omega
            subst hi0
            rw [if_pos rfl] at hB
            refine hscan.mpr (Or.inr ⟨s, offs, by omega, hs2, hs3, hs4, hs5, hs6,
              hs7, hrest⟩)
        · obtain ⟨hfirst, hprev⟩ := ihm.1 hm0
          rw [if_neg (by rw [hfirst]; exact Bool.false_ne_true)]
          rw [if_pos hprev]
          have hfl : c - (c - q.range) = q.range := by omega
          rw [hfl]
          have hrc : q.range ≤ pageFloor start + m * c := by
            have h3 : 1 * c ≤ m * c := Nat.mul_le_mul_right c hm0
            omega
          have hbuf : memSlice mem (pageFloor start + m * c - q.range) q.range ++
              memSlice mem (pageFloor start + m * c)
                (min (pageFloor start + m * c + c) endA -
                 (pageFloor start + m * c)) =
              memSlice mem (pageFloor start + m * c - q.range)
                (min (pageFloor start + m * c + c) endA -
                 (pageFloor start + m * c - q.range)) := by
            have h4 : q.range + (min (pageFloor start + m * c + c) endA -
                (pageFloor start + m * c)) =
                min (pageFloor start + m * c + c) endA -
                (pageFloor start + m * c - q.range) := by omega
            have h5 := memSlice_append mem (pageFloor start + m * c - q.range)
              q.range
              (min (pageFloor start + m * c + c) endA - (pageFloor start + m * c))
            rw [h4] at h5
            rw [show (pageFloor start + m * c - q.range) + q.range =
              pageFloor start + m * c from by omega] at h5
            exact h5
          rw [hbuf]
          refine ⟨fun _ => ⟨hfirst, rfl⟩, ?_⟩
          intro x
          have hcb := combinedStatusOf_base
            (readStatus pageOk (pageFloor start + m * c)
              (min (pageFloor start + m * c + c) endA - (pageFloor start + m * c)))
            (q.range + (min (pageFloor start + m * c + c) endA -
              (pageFloor start + m * c)))
            (pageFloor start + m * c - q.range) q.range (pageFloor start + m * c)
          have hcl : (combinedStatusOf
              (readStatus pageOk (pageFloor start + m * c)
                (min (pageFloor start + m * c + c) endA -
                 (pageFloor start + m * c)))
              (q.range + (min (pageFloor start + m * c + c) endA -
                (pageFloor start + m * c)))
              (pageFloor start + m * c - q.range) q.range
              (pageFloor start + m * c)).len =
              min (pageFloor start + m * c + c) endA -
              (pageFloor start + m * c - q.range) := by
            rw [combinedStatusOf_len]
            omega
          have hcs := combinedStatusOf_allSucc pageOk hall (pageFloor start + m * c)
            (min (pageFloor start + m * c + c) endA - (pageFloor start + m * c))
            q.range hrc
          have hscan := scan_chunk_iff mem q bytes ty vs hq hw hm hsz
            (pageFloor start + m * c - q.range)
            (min (pageFloor start + m * c + c) endA) start
            (combinedStatusOf
              (readStatus pageOk (pageFloor start + m * c)
                (min (pageFloor start + m * c + c) endA -
                 (pageFloor start + m * c)))
              (q.range + (min (pageFloor start + m * c + c) endA -
                (pageFloor start + m * c)))
              (pageFloor start + m * c - q.range) q.range (pageFloor start + m * c))
            ((List.range m).foldl (chunkStep mem pageOk q start endA c)
              ⟨[], true, false⟩).results
            (by omega) hcb hcl hcs x
          constructor
          · intro hx
            rcases hscan.mp hx with h0 | ⟨s, offs, hB, hs2, hs3, hs4, hs5, hs6,
              hs7, hrest⟩
            · obtain ⟨i, hi, rest⟩ := (ihm.2 x).mp h0
              exact ⟨i, by omega, rest⟩
            · refine ⟨m, by omega, s, offs, ?_, hs2, hs3, hs4, hs5, hs6, hs7, hrest⟩
              rw [if_neg (by omega : ¬ (m = 0))]
              exact hB
          · rintro ⟨i, hi, s, offs, hB, hs2, hs3, hs4, hs5, hs6, hs7, hrest⟩
            rcases Nat.lt_or_ge i m with him | him
            · exact hscan.mpr (Or.inl ((ihm.2 x).mpr
                ⟨i, him, s, offs, hB, hs2, hs3, hs4, hs5, hs6, hs7, hrest⟩))
            · have him' : i = m := by omega
              subst him'
              rw [if_neg (by omega : ¬ (i = 0))] at hB
              exact hscan.mpr (Or.inr ⟨s, offs, hB, hs2, hs3, hs4, hs5, hs6,
                hs7, hrest⟩)
  intro x
  unfold search_region_group
  rw [(key ((endA - pageFloor start + c - 1) / c) (le_refl _)).2 x]
  constructor
  · rintro ⟨i, hin, s, offs, hB, hs2, hs3, hs4, hs5, hs6, hs7, po, hpo, hxeq⟩
    have hEa : min (pageFloor start + i * c + c) endA ≤ endA :=
      Nat.min_le_right _ _
    have h3 : (min (s + q.range) (min (pageFloor start + i * c + c) endA) - s) +
        ((min (s + q.range) endA - s) -
         (min (s + q.range) (min (pageFloor start + i * c + c) endA) - s)) =
        min (s + q.range) endA - s := by omega
    have hsplit := memSlice_append mem s
      (min (s + q.range) (min (pageFloor start + i * c + c) endA) - s)
      ((min (s + q.range) endA - s) -
       (min (s + q.range) (min (pageFloor start + i * c + c) endA) - s))
    rw [h3] at hsplit
    have htm' : try_match_ordered q
        (memSlice mem s (min (s + q.range) endA - s)) = some offs := by
      rw [← hsplit]
      unfold try_match_ordered at hs7 ⊢
      exact tmOrdered_append _ hs7
    exact ⟨s, offs, hs2, by omega, by omega, hs5, hs6, htm', po, hpo, hxeq⟩
  · rintro ⟨s, offs, hss, hsE, hsdE, hdvd, hocc, htm, po, hpo, hxeq⟩
    have hdr : ty.size ≤ q.range := by omega
    have hsW : s < min (s + q.range) endA := by omega
    have hk1 : (min (s + q.range) endA - 1 - pageFloor start) / c * c ≤
        min (s + q.range) endA - 1 - pageFloor start := Nat.div_mul_le_self _ _
    have hk2 : min (s + q.range) endA - 1 - pageFloor start <
        (min (s + q.range) endA - 1 - pageFloor start) / c * c + c := by
      have hd := Nat.div_add_mod (min (s + q.range) endA - 1 - pageFloor start) c
      have hmo := Nat.mod_lt (min (s + q.range) endA - 1 - pageFloor start) hc0
      have hcomm : c * ((min (s + q.range) endA - 1 - pageFloor start) / c) =
          (min (s + q.range) endA - 1 - pageFloor start) / c * c := by ring
      omega
    have hcn : endA - pageFloor start ≤
        (endA - pageFloor start + c - 1) / c * c := by
      have hd := Nat.div_add_mod (endA - pageFloor start + c - 1) c
      have hmo := Nat.mod_lt (endA - pageFloor start + c - 1) hc0
      have hcomm : c * ((endA - pageFloor start + c - 1) / c) =
          (endA - pageFloor start + c - 1) / c * c := by ring
      omega
    have hkn : (min (s + q.range) endA - 1 - pageFloor start) / c <
        (endA - pageFloor start + c - 1) / c := by
      by_contra hcon
      push_neg at hcon
      have hmul := Nat.mul_le_mul_right c hcon
      omega
    refine ⟨(min (s + q.range) endA - 1 - pageFloor start) / c, hkn, s, offs, ?_,
      hss, ?_, ?_, hdvd, hocc, ?_, po, hpo, hxeq⟩
    · split
      · omega
      · omega
    · omega
    · omega
    · rw [show min (s + q.range) (min (pageFloor start +
        (min (s + q.range) endA - 1 - pageFloor start) / c * c + c) endA) =
        min (s + q.range) endA from by omega]
      exact htm

/-! Claim theorems. -/

/-- C9: the total order of ValuePair compares only the address, so cmp returns
eq for any two pairs with equal addresses even when their value types differ,
while the derived equality requires both fields to agree; cmp is therefore not
consistent with equality, and a set ordered by this comparison retains at most
one entry per address, collapsing same-address different-type hits (the
concrete insertion below drops the Word pair because a Byte pair at the same
address is already present). -/
theorem C9_valuepair_cmp_collapses :
    (∀ p q : ValuePair, p.addr = q.addr → ValuePair.cmp p q = Ordering.eq) ∧
    (∀ p q : ValuePair, ValuePair.beqDerived p q = true ↔ p = q) ∧
    (ValuePair.cmp ⟨0, ValueType.byte⟩ ⟨0, ValueType.word⟩ = Ordering.eq ∧
     ValuePair.beqDerived ⟨0, ValueType.byte⟩ ⟨0, ValueType.word⟩ = false ∧
     (⟨0, ValueType.byte⟩ : ValuePair) ≠ ⟨0, ValueType.word⟩) ∧
    (∀ (rs : List ValuePair) (p : ValuePair), (addrs rs).Nodup →
      (addrs (insertPair rs p)).Nodup) ∧
    insertPair [⟨0, ValueType.byte⟩] ⟨0, ValueType.word⟩ = [⟨0, ValueType.byte⟩] := by
  refine ⟨?_, ?_, by decide, insertPair_addrs_nodup, by decide⟩
  · intro p q h
    simp [ValuePair.cmp, h, compare_eq_iff_eq]
  · intro p q
    cases p
    cases q
    simp only [ValuePair.beqDerived, Bool.and_eq_true, beq_iff_eq, ValuePair.mk.injEq]

theorem C9_valuepair_cmp_collapses_witness :
    ValuePair.cmp ⟨77, ValueType.dword⟩ ⟨77, ValueType.float⟩ = Ordering.eq ∧
    (ValuePair.beqDerived ⟨5, ValueType.qword⟩ ⟨5, ValueType.qword⟩ = true) ∧
    (addrs (insertPair [⟨1, ValueType.byte⟩, ⟨3, ValueType.word⟩]
      ⟨3, ValueType.dword⟩)).Nodup :=
  ⟨C9_valuepair_cmp_collapses.1 ⟨77, ValueType.dword⟩ ⟨77, ValueType.float⟩ rfl,
   (C9_valuepair_cmp_collapses.2.1 ⟨5, ValueType.qword⟩ ⟨5, ValueType.qword⟩).mpr rfl,
   C9_valuepair_cmp_collapses.2.2.2.1 [⟨1, ValueType.byte⟩, ⟨3, ValueType.word⟩]
     ⟨3, ValueType.dword⟩ (by decide)⟩

/-- C10: ProgressBuffer.update and ProgressBuffer.update_heartbeat write
nothing when the pointer is null or the length is below 20; otherwise update
writes exactly bytes 0..4 (progress), 4..8 (regions searched) and 8..16 (total
found) and update_heartbeat writes exactly bytes 16..20 (heartbeat), all
little-endian, every other byte of the buffer being left unchanged. -/
theorem C10_progress_buffer_guard_and_layout :
    ∀ (pb : ProgressBuffer) (buf : Nat → Nat) (pr re tf hb : Int),
      ((pb.is_null ∨ pb.len < 20) →
        pb.update buf pr re tf = buf ∧ pb.update_heartbeat buf hb = buf) ∧
      (¬ (pb.is_null ∨ pb.len < 20) →
        (∀ i, i < 4 → pb.update buf pr re tf i = i32byte pr i) ∧
        (∀ i, 4 ≤ i → i < 8 → pb.update buf pr re tf i = i32byte re (i - 4)) ∧
        (∀ i, 8 ≤ i → i < 16 → pb.update buf pr re tf i = i64byte tf (i - 8)) ∧
        (∀ i, 16 ≤ i → pb.update buf pr re tf i = buf i) ∧
        (∀ i, 16 ≤ i → i < 20 → pb.update_heartbeat buf hb i = i32byte hb (i - 16)) ∧
        (∀ i, ¬ (16 ≤ i ∧ i < 20) → pb.update_heartbeat buf hb i = buf i)) := by
  intro pb buf pr re tf hb
  constructor
  · intro h
    unfold ProgressBuffer.update ProgressBuffer.update_heartbeat
    rw [if_pos h, if_pos h]
    exact ⟨rfl, rfl⟩
  · intro h
    unfold ProgressBuffer.update ProgressBuffer.update_heartbeat
    rw [if_neg h, if_neg h]
    refine ⟨?_, ?_, ?_, ?_, ?_, ?_⟩
    · intro i hi
      exact if_pos hi
    · intro i hi1 hi2
      exact (if_neg (by omega)).trans (if_pos hi2)
    · intro i hi1 hi2
      exact ((if_neg (by omega)).trans (if_neg (by omega))).trans (if_pos hi2)
    · intro i hi
      exact ((if_neg (by omega)).trans (if_neg (by omega))).trans (if_neg (by omega))
    · intro i hi1 hi2
      exact if_pos ⟨hi1, hi2⟩
    · intro i hi
      exact if_neg hi

theorem C10_progress_buffer_guard_and_layout_witness :
    ProgressBuffer.update ⟨true, 64⟩ (fun _ => 7) 55 2 9 = (fun _ => 7) ∧
    ProgressBuffer.update ⟨false, 20⟩ (fun _ => 7) 55 2 9 3 = 0 ∧
    ProgressBuffer.update ⟨false, 20⟩ (fun _ => 7) 55 2 9 17 = 7 := by
  refine ⟨((C10_progress_buffer_guard_and_layout ⟨true, 64⟩ (fun _ => 7) 55 2 9 0).1
    (Or.inl rfl)).1, ?_, ?_⟩
  · rw [((C10_progress_buffer_guard_and_layout ⟨false, 20⟩ (fun _ => 7) 55 2 9 0).2
      (by simp)).1 3 (by omega)]
    decide
  · exact ((C10_progress_buffer_guard_and_layout ⟨false, 20⟩ (fun _ => 7) 55 2 9 0).2
      (by simp)).2.2.2.1 17 (by omega)

/-- C7 counterexample: search_memory does not refuse a zero-value query (with
no regions it returns Ok 0 and fires the callback) and does not refuse a
two-Dword group query whose range 4 is smaller than the 8-byte value sum: the
query is scanned and both match addresses are stored, so no error is returned
before scanning in either case. -/
theorem C7_counterexample :
    search_memory true (fun _ => 0) (fun _ => true) ⟨[], SearchMode.ordered, 16⟩ [] 4096 =
      some ⟨Except.ok 0, 1⟩ ∧
    search_memory true (fun a => [100, 0, 0, 0, 200, 0, 0, 0].getD a 1) (fun _ => true)
      ⟨[fxDword 100, fxDword 200], SearchMode.ordered, 4⟩ [(0, 8)] 64 =
      some ⟨Except.ok 2, 1⟩ := by
  constructor
  · rfl
  · rfl

/-- C7 (amended): search_memory performs no pre-scan query validation.  It
never returns an EmptyQuery or RangeTooSmall error: the only error it can
return is the NotInitialized one; every query with at least one value is
scanned and completes with Ok (a zero-value query returns Ok 0 when there is
no region and panics on indexing values[0] otherwise, modelled as none). -/
theorem C7_amended_no_prescan_validation :
    (∀ init mem pageOk (q : SearchQuery) regions chunk out,
      search_memory init mem pageOk q regions chunk = some out →
      ∀ e, out.result = Except.error e → e = "SearchEngineManager not initialized") ∧
    (∀ mem pageOk (q : SearchQuery) regions chunk, q.values ≠ [] →
      ∃ n, search_memory true mem pageOk q regions chunk = some ⟨Except.ok n, 1⟩) := by
  constructor
  · intro init mem pageOk q regions chunk out h e he
    unfold search_memory at h
    by_cases hinit : init
    · rw [if_neg (by simpa using hinit)] at h
      rcases hq : q.values with _ | ⟨v, _ | ⟨w, vs⟩⟩ <;> simp only [hq] at h
      · by_cases hr : regions.isEmpty
        · rw [if_pos hr] at h
          injection h with h
          rw [← h] at he
          cases he
        · rw [if_neg hr] at h
          cases h
      · injection h with h
        rw [← h] at he
        cases he
      · injection h with h
        rw [← h] at he
        cases he
    · rw [if_pos (by simpa using hinit)] at h
      injection h with h
      rw [← h] at he
      injection he with he
      exact he.symm
  · intro mem pageOk q regions chunk hq
    unfold search_memory
    rw [if_neg (by simp)]
    rcases hv : q.values with _ | ⟨v, _ | ⟨w, vs⟩⟩
    · exact absurd hv hq
    · exact ⟨_, rfl⟩
    · exact ⟨_, rfl⟩

theorem C7_amended_no_prescan_validation_witness :
    ∃ n, search_memory true (fun _ => 0) (fun _ => true)
      ⟨[fxDword 1, fxDword 2], SearchMode.ordered, 4⟩ [(0, 64)] 64 =
      some ⟨Except.ok n, 1⟩ :=
  C7_amended_no_prescan_validation.2 (fun _ => 0) (fun _ => true)
    ⟨[fxDword 1, fxDword 2], SearchMode.ordered, 4⟩ [(0, 64)] 64 (by simp)

/-- C8 counterexample: a refine_search invoked while the current result set is
empty returns Ok 0 without firing the completion callback even though a
callback was given, refuting that every invocation fires it exactly once. -/
theorem C8_counterexample :
    refine_search true (fun _ => 0) ⟨[fxDword 100], SearchMode.ordered, 16⟩ [] =
      ⟨Except.ok 0, 0⟩ := rfl

/-- C8 (amended): search_memory fires the completion callback exactly once on
every run that completes (even with an empty result set) and zero times when
not initialized; refine_search fires it exactly once when initialized and the
current result set is non-empty, and does not fire it when the current result
set is empty (returning Ok 0) or when not initialized. -/
theorem C8_amended_callback_totality :
    (∀ init mem pageOk (q : SearchQuery) regions chunk out,
      search_memory init mem pageOk q regions chunk = some out →
      out.callback_fires = if init then 1 else 0) ∧
    (∀ init mem (q : SearchQuery) current,
      (refine_search init mem q current).callback_fires =
        if init ∧ current ≠ [] then 1 else 0) := by
  constructor
  · intro init mem pageOk q regions chunk out h
    unfold search_memory at h
    by_cases hinit : init
    · rw [if_neg (by simpa using hinit)] at h
      rw [if_pos hinit]
      rcases hq : q.values with _ | ⟨v, _ | ⟨w, vs⟩⟩ <;> simp only [hq] at h
      · by_cases hr : regions.isEmpty
        · rw [if_pos hr] at h
          injection h with h
          rw [← h]
        · rw [if_neg hr] at h
          cases h
      · injection h with h
        rw [← h]
      · injection h with h
        rw [← h]
    · rw [if_pos (by simpa using hinit)] at h
      rw [if_neg hinit]
      injection h with h
      rw [← h]
  · intro init mem q current
    unfold refine_search
    by_cases hinit : init
    · rw [if_neg (by simpa using hinit)]
      by_cases hc : current.isEmpty
      · rw [if_pos hc, if_neg (by simp_all [List.isEmpty_iff])]
      · rw [if_neg hc, if_pos (by simp_all [List.isEmpty_iff])]
        rcases q.values with _ | ⟨v, _ | ⟨w, vs⟩⟩ <;> rfl
    · rw [if_pos (by simpa using hinit), if_neg (by simp [hinit])]

theorem C8_amended_callback_totality_witness :
    (refine_search true (fun _ => 0) ⟨[fxDword 100], SearchMode.ordered, 16⟩
      [⟨4, ValueType.dword⟩]).callback_fires = 1 := by
  rw [C8_amended_callback_totality.2 true (fun _ => 0)
    ⟨[fxDword 100], SearchMode.ordered, 16⟩ [⟨4, ValueType.dword⟩]]
  rw [if_pos ⟨rfl, by simp⟩]

/-- C5: try_match_ordered scans the query values left to right with a single
cursor; for each value the cursor advances in steps of that value's size until
the slice matches, the offset is recorded and the cursor moves past the value;
the match fails iff no such greedy assignment exists.  On success there is
exactly one offset per value, the offsets are strictly increasing, and the
emission list the caller inserts pairs each address S + offsets[i] with the
value type of values[i], in value order. -/
theorem C5_try_match_ordered_greedy :
    ∀ (q : SearchQuery) (buf : List Nat),
      (∀ offs, try_match_ordered q buf = some offs ↔ GreedyOrd buf q.values 0 offs) ∧
      (try_match_ordered q buf = none ↔ ¬ ∃ offs, GreedyOrd buf q.values 0 offs) ∧
      (∀ offs, try_match_ordered q buf = some offs →
        offs.length = q.values.length ∧ offs.Pairwise (· < ·) ∧
        ∀ S i, (hi : i < offs.length) → (hv : i < q.values.length) →
          (emissionsOfMatch S q offs).length = q.values.length ∧
          (emissionsOfMatch S q offs)[i]? =
            some ⟨S + offs[i], (q.values[i]).value_type⟩) := by
  intro q buf
  have hiff : ∀ offs, try_match_ordered q buf = some offs ↔ GreedyOrd buf q.values 0 offs :=
    fun offs => tmOrdered_some_iff q.values buf 0 offs
  refine ⟨hiff, ?_, ?_⟩
  · constructor
    · rintro h ⟨offs, hoffs⟩
      rw [(hiff offs).mpr hoffs] at h
      cases h
    · intro h
      cases htm : try_match_ordered q buf with
      | none => rfl
      | some offs => exact absurd ⟨offs, (hiff offs).mp htm⟩ h
  · intro offs h
    have hg := (hiff offs).mp h
    have hlen := hg.length_eq
    refine ⟨hlen, hg.pairwise_lt, ?_⟩
    intro S i hi hv
    constructor
    · simp [emissionsOfMatch, hlen]
    · rw [List.getElem?_eq_getElem (by simp [emissionsOfMatch, hlen, hv])]
      simp only [emissionsOfMatch, List.getElem_map, List.getElem_zip]

theorem C5_try_match_ordered_greedy_witness :
    GreedyOrd [100, 0, 0, 0, 200, 0, 0, 0]
      [fxDword 100, fxDword 200] 0 [0, 4] ∧
    ((emissionsOfMatch 4096 ⟨[fxDword 100, fxDword 200], SearchMode.ordered, 16⟩
      [0, 4])[1]? = some ⟨4100, ValueType.dword⟩) := by
  constructor
  · exact ((C5_try_match_ordered_greedy
      ⟨[fxDword 100, fxDword 200], SearchMode.ordered, 16⟩
      [100, 0, 0, 0, 200, 0, 0, 0]).1 [0, 4]).mp (by decide)
  · exact (((C5_try_match_ordered_greedy
      ⟨[fxDword 100, fxDword 200], SearchMode.ordered, 16⟩
      [100, 0, 0, 0, 200, 0, 0, 0]).2.2 [0, 4] (by decide)).2.2 4096 1
      (by decide) (by decide)).2

/-- C4 counterexample: with a two-dword ordered query of range 4 (smaller than
the 8-byte sum of the value sizes) the ordered validation window is
max(sum, range) = 8 bytes, and the scanner emits a match whose address span
runs from 0 to 4 + 4 = 8 and so exceeds range = 4. -/
theorem C4_counterexample :
    search_in_buffer_group [100, 0, 0, 0, 200, 0, 0, 0] 0 0 8 4
      ⟨[fxDword 100, fxDword 200], SearchMode.ordered, 4⟩
      ((PageStatusBitmap.new 8 0).mark_all_success) [] =
      [⟨0, ValueType.dword⟩, ⟨4, ValueType.dword⟩] ∧
    ¬ (4 + ValueType.dword.size ≤ 0 + 4) :=
  ⟨by decide, by decide⟩

/-- C4 (amended): whenever the sum of the value sizes is at most the range, in
Ordered mode any two pairs emitted for one anchor candidate lie within range
bytes of each other (later end at most the earlier start plus range), so the
address span of a match is at most range; on the fallback path the same bound
holds for every query, the window being exactly the clipped range; in
Unordered mode every emitted pair lies within [anchor - range, anchor + range].
Without the hypothesis the ordered bound fails, the ordered window being
max(sum of sizes, range) bytes (C4_counterexample). -/
theorem C4_amended_range_bound :
    (∀ (q : SearchQuery) (aidx : Nat) (buffer : List Nat) (b rs_ re : Nat)
      (st : PageStatusBitmap) (o : Nat) (p p2 : ValuePair),
      q.mode = SearchMode.ordered → sizesSum q ≤ q.range →
      p ∈ emitCandidate q aidx buffer b rs_ re st o →
      p2 ∈ emitCandidate q aidx buffer b rs_ re st o →
      p2.addr + p2.value_type.size ≤ p.addr + q.range) ∧
    (∀ (q : SearchQuery) (buffer : List Nat) (b se t : Nat) (p p2 : ValuePair),
      p ∈ fallbackEmits q buffer b se t →
      p2 ∈ fallbackEmits q buffer b se t →
      p2.addr + p2.value_type.size ≤ p.addr + q.range) ∧
    (∀ (q : SearchQuery) (aidx : Nat) (buffer : List Nat) (b rs_ re : Nat)
      (st : PageStatusBitmap) (o : Nat) (p : ValuePair),
      q.mode = SearchMode.unordered →
      p ∈ emitCandidate q aidx buffer b rs_ re st o →
      b + o ≤ p.addr + q.range ∧ p.addr + p.value_type.size ≤ (b + o) + q.range) := by
  refine ⟨?_, ?_, ?_⟩
  · intro q aidx buffer b rs_ re st o p p2 hm hsz hp hp2
    rcases (mem_emitCandidate_ordered hm aidx buffer b rs_ re st o p).mp hp with
      ⟨-, -, -, -, -, offs, htm, hpe⟩
    rcases (mem_emitCandidate_ordered hm aidx buffer b rs_ re st o p2).mp hp2 with
      ⟨-, -, -, -, -, offs2, htm2, hpe2⟩
    have hoe : offs = offs2 := Option.some.inj (htm.symm.trans htm2)
    subst hoe
    have htmg : try_match_group_at_address q (slice buffer
        (ordStart q aidx (b + o) - b)
        (ordEnd q (ordStart q aidx (b + o)) (b + buffer.length) re -
         ordStart q aidx (b + o))) = some offs := by
      unfold try_match_group_at_address
      rw [hm]
      exact htm
    have hb1 := try_match_group_emission_bounds htmg hpe
    have hb2 := try_match_group_emission_bounds htmg hpe2
    have hwl := slice_length buffer (ordStart q aidx (b + o) - b)
      (ordEnd q (ordStart q aidx (b + o)) (b + buffer.length) re -
       ordStart q aidx (b + o))
    have hend : ordEnd q (ordStart q aidx (b + o)) (b + buffer.length) re ≤
        ordStart q aidx (b + o) + q.range := by
      unfold ordEnd
      omega
    omega
  · intro q buffer b se t p p2 hp hp2
    rcases mem_fallbackEmits buffer b se t p hp with ⟨-, -, -, offs, htm, hpe⟩
    rcases mem_fallbackEmits buffer b se t p2 hp2 with ⟨-, -, -, offs2, htm2, hpe2⟩
    have hoe : offs = offs2 := Option.some.inj (htm.symm.trans htm2)
    subst hoe
    have hb1 := try_match_group_emission_bounds htm hpe
    have hb2 := try_match_group_emission_bounds htm hpe2
    have hwl := slice_length buffer (t - b)
      (min (t + q.range) (min (b + buffer.length) se) - t)
    omega
  · intro q aidx buffer b rs_ re st o p hm hp
    rcases mem_emitCandidate_unordered hm aidx buffer b rs_ re st o p hp with
      ⟨-, -, -, offs, htm, hpe⟩
    have htmg : try_match_group_at_address q (slice buffer
        (max (b + o - q.range) b - b)
        (min (b + o + q.range) (min (b + buffer.length) re) -
         max (b + o - q.range) b)) = some offs := by
      unfold try_match_group_at_address
      rw [hm]
      exact htm
    have hb1 := try_match_group_emission_bounds htmg hpe
    have hwl := slice_length buffer (max (b + o - q.range) b - b)
      (min (b + o + q.range) (min (b + buffer.length) re) -
       max (b + o - q.range) b)
    constructor <;> omega

theorem C4_amended_range_bound_witness :
    (⟨0, ValueType.dword⟩ : ValuePair) ∈
      emitCandidate ⟨[fxDword 100, fxDword 200], SearchMode.ordered, 8⟩ 0
        [100, 0, 0, 0, 200, 0, 0, 0] 0 0 8
        ((PageStatusBitmap.new 8 0).mark_all_success) 0 ∧
    (⟨4, ValueType.dword⟩ : ValuePair) ∈
      emitCandidate ⟨[fxDword 100, fxDword 200], SearchMode.ordered, 8⟩ 0
        [100, 0, 0, 0, 200, 0, 0, 0] 0 0 8
        ((PageStatusBitmap.new 8 0).mark_all_success) 0 ∧
    (4 : Nat) + ValueType.dword.size ≤ 0 + 8 :=
  ⟨by decide, by decide,
   C4_amended_range_bound.1 ⟨[fxDword 100, fxDword 200], SearchMode.ordered, 8⟩ 0
     [100, 0, 0, 0, 200, 0, 0, 0] 0 0 8
     ((PageStatusBitmap.new 8 0).mark_all_success) 0
     ⟨0, ValueType.dword⟩ ⟨4, ValueType.dword⟩ rfl (by decide) (by decide) (by decide)⟩

/-- C6 counterexample: an ordered query mixing a Word and a Dword range value
emits the Dword at address 2, which is not a multiple of the Dword size 4: the
greedy cursor strides each value by that value's own size from wherever the
previous value left it, without realigning. -/
theorem C6_counterexample :
    addrs (search_region_group
      (fun a => if a = 0 then 1 else if a = 2 then 1 else if a < 8 then 0 else 255)
      (fun _ => true)
      ⟨[SearchValue.rangeValue 0 10 ValueType.word false,
        SearchValue.rangeValue 0 10 ValueType.dword false],
        SearchMode.ordered, 8⟩ 0 8 64) = [0, 2] ∧
    (search_region_group
      (fun a => if a = 0 then 1 else if a = 2 then 1 else if a < 8 then 0 else 255)
      (fun _ => true)
      ⟨[SearchValue.rangeValue 0 10 ValueType.word false,
        SearchValue.rangeValue 0 10 ValueType.dword false],
        SearchMode.ordered, 8⟩ 0 8 64)[1]? =
      some ⟨2, ValueType.dword⟩ ∧
    ¬ (ValueType.dword.size ∣ 2) :=
  ⟨by decide, by decide, by decide⟩

/-- C6 (amended): in Ordered mode every address emitted by the chunked group
scan is a multiple of the minimum element size of the query — not of its own
value type's size (C6_counterexample): anchor candidates are aligned to the
anchor size, sequence starts subtract a min-aligned prefix, fallback walk
addresses are min-aligned, and all greedy cursor offsets are multiples of the
minimum element size. -/
theorem C6_amended_min_alignment (mem : Nat → Nat) (pageOk : Nat → Bool)
    (q : SearchQuery) (start endA chunk : Nat) (hw : q.wf)
    (hm : q.mode = SearchMode.ordered) :
    ∀ x ∈ addrs (search_region_group mem pageOk q start endA chunk),
      minElementSize q ∣ x := by
  refine driver_addrs_closed (fun x => minElementSize q ∣ x) ?_
  intro buffer b2 re2 st2 init x hinit hx
  rcases (addr_mem_scan buffer b2 start re2 (minElementSize q) q st2 init x).mp hx with
    hx0 | hrest
  · exact hinit x hx0
  · cases hfa : findAnchor q.values with
    | some ap =>
        rcases ap with ⟨aidx, pat⟩
        simp only [hfa] at hrest
        rcases hrest with ⟨-, o, ho, p, hp, hpx⟩
        rcases mem_anchorCandidates ho with ⟨-, hmod, -, -⟩
        rcases findAnchor_spec hw hfa with ⟨hai, hpl⟩
        have hdvd_bo : minElementSize q ∣ (b2 + o) :=
          dvd_trans (hpl hai).2 (Nat.dvd_of_mod_eq_zero hmod)
        rcases (mem_emitCandidate_ordered hm aidx buffer b2 start re2 st2 o p).mp hp with
          ⟨-, -, -, -, -, offs, htm, hpe⟩
        unfold try_match_ordered at htm
        have hg := (tmOrdered_some_iff q.values _ 0 offs).mp htm
        rcases mem_emissionsOfMatch.mp hpe with ⟨⟨o1, v1⟩, hpo, rfl⟩
        have hoff : minElementSize q ∣ o1 :=
          hg.dvd_all (fun v hv => minElementSize_dvd q v hv) (dvd_zero _) o1
            (List.of_mem_zip hpo).1
        have hs : minElementSize q ∣ ordStart q aidx (b2 + o) := by
          unfold ordStart
          exact Nat.dvd_sub' hdvd_bo (presizeAt_dvd q aidx)
        have hx2 : x = ordStart q aidx (b2 + o) + o1 := by
          rw [← hpx]
        rw [hx2]
        exact Nat.dvd_add hs hoff
    | none =>
        simp only [hfa] at hrest
        rcases hrest with ⟨r, hr, t, ht, p, hp, hpx⟩
        have hmes : 0 < minElementSize q := minElementSize_pos q
        rcases (mem_fallbackWalk_iff hmes).mp ht with ⟨-, ⟨k, hk⟩, -⟩
        have hdt : minElementSize q ∣ t := by
          rw [hk]
          refine Nat.dvd_add ?_ (dvd_mul_left _ _)
          split
          · exact alignUp_dvd hmes
          · exact alignUp_dvd hmes
        rcases mem_fallbackEmits buffer b2 _ t p hp with ⟨-, -, -, offs, htm, hpe⟩
        unfold try_match_group_at_address at htm
        rw [hm] at htm
        have hg := (tmOrdered_some_iff q.values _ 0 offs).mp htm
        rcases mem_emissionsOfMatch.mp hpe with ⟨⟨o1, v1⟩, hpo, rfl⟩
        have hoff : minElementSize q ∣ o1 :=
          hg.dvd_all (fun v hv => minElementSize_dvd q v hv) (dvd_zero _) o1
            (List.of_mem_zip hpo).1
        have hx2 : x = t + o1 := by
          rw [← hpx]
        rw [hx2]
        exact Nat.dvd_add hdt hoff

theorem C6_amended_min_alignment_witness :
    (⟨[SearchValue.rangeValue 0 10 ValueType.word false,
       SearchValue.rangeValue 0 10 ValueType.dword false],
       SearchMode.ordered, 8⟩ : SearchQuery).wf ∧
    2 ∈ addrs (search_region_group
      (fun a => if a = 0 then 1 else if a = 2 then 1 else if a < 8 then 0 else 255)
      (fun _ => true)
      ⟨[SearchValue.rangeValue 0 10 ValueType.word false,
        SearchValue.rangeValue 0 10 ValueType.dword false],
        SearchMode.ordered, 8⟩ 0 8 64) ∧
    minElementSize ⟨[SearchValue.rangeValue 0 10 ValueType.word false,
      SearchValue.rangeValue 0 10 ValueType.dword false],
      SearchMode.ordered, 8⟩ ∣ 2 :=
  ⟨by simp [SearchQuery.wf, SearchValue.wf], by decide,
   C6_amended_min_alignment
     (fun a => if a = 0 then 1 else if a = 2 then 1 else if a < 8 then 0 else 255)
     (fun _ => true)
     ⟨[SearchValue.rangeValue 0 10 ValueType.word false,
       SearchValue.rangeValue 0 10 ValueType.dword false],
       SearchMode.ordered, 8⟩ 0 8 64
     (by simp [SearchQuery.wf, SearchValue.wf]) rfl 2 (by decide)⟩

set_option maxRecDepth 10000 in
set_option maxHeartbeats 4000000 in
/-- C2 counterexample: the driver scans the region [0, 4160) with 80-byte
chunks; only page 0 reads successfully, the bytes 100 (little-endian dword) at
4092 and 200 at 4096 straddle the page boundary.  The overlap pass of the
chunk at 4080 blanket-marks the overlap prefix pages of its combined status
successful, the sequence start 4092 passes the page check in page 0, and the
ordered window extends into failed page 1: the scan emits address 4096, which
lies in a failed page, after matching bytes read from it. -/
theorem C2_counterexample :
    addrs (search_region_group
      (fun a => if a = 4092 then 100 else if a = 4096 then 200 else 0)
      (fun p => p == 0)
      ⟨[fxDword 100, fxDword 200], SearchMode.ordered, 16⟩ 0 4160 80) =
      [4092, 4096] ∧
    (fun p => p == 0) (4096 / PAGE_SIZE) = false :=
  ⟨by decide, by decide⟩

/-- C2 (amended): the page check is per window base only.  Every address x
added by search_in_buffer_group (either path) comes with a checked address chk
— the ordered sequence start, the unordered anchor, or the fallback walk
address — that lies in a page marked successful in the bitmap the scanner was
given, with chk ≤ x + range and x < chk + max(sum of sizes, range); the
emitted address itself and the bytes the matcher reads can lie in failed
pages, and the driver additionally blanket-marks the overlap prefix pages of
the combined status successful, so chk itself can lie in a page the reader
marked failed (C2_counterexample). -/
theorem C2_amended_page_check_granularity (buffer : List Nat) (b rs_ re mes : Nat)
    (q : SearchQuery) (st : PageStatusBitmap) (init : List ValuePair) (x : Nat)
    (hx : x ∈ addrs (search_in_buffer_group buffer b rs_ re mes q st init)) :
    x ∈ addrs init ∨
    ∃ chk i, st.is_page_success i = true ∧
      pageFloor b + i * PAGE_SIZE ≤ chk ∧
      chk < pageFloor b + (i + 1) * PAGE_SIZE ∧
      chk ≤ x + q.range ∧ x < chk + max (sizesSum q) q.range := by
  rcases (addr_mem_scan buffer b rs_ re mes q st init x).mp hx with hx0 | hrest
  · exact Or.inl hx0
  · right
    cases hfa : findAnchor q.values with
    | some ap =>
        rcases ap with ⟨aidx, pat⟩
        simp only [hfa] at hrest
        rcases hrest with ⟨-, o, ho, p, hp, hpx⟩
        cases hm : q.mode with
        | ordered =>
            rcases (mem_emitCandidate_ordered hm aidx buffer b rs_ re st o p).mp hp with
              ⟨-, -, hpage, -, -, offs, htm, hpe⟩
            rcases (inSuccessRanges_iff st (pageFloor b) _).mp hpage with
              ⟨i, hip, hi1, hi2⟩
            have htmg : try_match_group_at_address q (slice buffer
                (ordStart q aidx (b + o) - b)
                (ordEnd q (ordStart q aidx (b + o)) (b + buffer.length) re -
                 ordStart q aidx (b + o))) = some offs := by
              unfold try_match_group_at_address
              rw [hm]
              exact htm
            have hb1 := try_match_group_emission_bounds htmg hpe
            have hwl := slice_length buffer (ordStart q aidx (b + o) - b)
              (ordEnd q (ordStart q aidx (b + o)) (b + buffer.length) re -
               ordStart q aidx (b + o))
            have hend : ordEnd q (ordStart q aidx (b + o)) (b + buffer.length) re ≤
                ordStart q aidx (b + o) + max (sizesSum q) q.range := by
              unfold ordEnd
              omega
            have hsp := ValueType.size_pos p.value_type
            exact ⟨ordStart q aidx (b + o), i, hip, hi1, hi2, by omega, by omega⟩
        | unordered =>
            rcases mem_emitCandidate_unordered hm aidx buffer b rs_ re st o p hp with
              ⟨-, -, hpage, offs, htm, hpe⟩
            rcases (inSuccessRanges_iff st (pageFloor b) _).mp hpage with
              ⟨i, hip, hi1, hi2⟩
            have htmg : try_match_group_at_address q (slice buffer
                (max (b + o - q.range) b - b)
                (min (b + o + q.range) (min (b + buffer.length) re) -
                 max (b + o - q.range) b)) = some offs := by
              unfold try_match_group_at_address
              rw [hm]
              exact htm
            have hb1 := try_match_group_emission_bounds htmg hpe
            have hwl := slice_length buffer (max (b + o - q.range) b - b)
              (min (b + o + q.range) (min (b + buffer.length) re) -
               max (b + o - q.range) b)
            have hsp := ValueType.size_pos p.value_type
            exact ⟨b + o, i, hip, hi1, hi2, by omega, by omega⟩
    | none =>
        simp only [hfa] at hrest
        rcases hrest with ⟨r, hr, t, ht, p, hp, hpx⟩
        rcases Nat.eq_zero_or_pos mes with rfl | hmes
        · exfalso
          simp only [fallbackWalk] at ht
          split at ht
          · exact absurd ht (List.not_mem_nil t)
          · simp [strideList] at ht
        · rcases (mem_fallbackWalk_iff hmes).mp ht with ⟨hne, ⟨k, hk⟩, hlt⟩
          have hpage : inSuccessRanges st (pageFloor b) t = true := by
            unfold inSuccessRanges
            refine List.any_eq_true.mpr ⟨r, hr, ?_⟩
            simp only [decide_eq_true_eq]
            have ha0 : max (pageFloor b + r.1 * PAGE_SIZE) b ≤
                (if max (pageFloor b + r.1 * PAGE_SIZE) b ≤ alignUp (max b rs_) mes
                 then alignUp (max b rs_) mes
                 else alignUp (max (pageFloor b + r.1 * PAGE_SIZE) b) mes) := by
              split
              next h => exact h
              next h => exact alignUp_ge hmes _
            constructor
            · omega
            · omega
          rcases (inSuccessRanges_iff st (pageFloor b) t).mp hpage with
            ⟨i, hip, hi1, hi2⟩
          rcases mem_fallbackEmits buffer b _ t p hp with ⟨-, -, -, offs, htm, hpe⟩
          have hb1 := try_match_group_emission_bounds htm hpe
          rw [slice_length] at hb1
          have hsp := ValueType.size_pos p.value_type
          exact ⟨t, i, hip, hi1, hi2, by omega, by omega⟩

theorem C2_amended_page_check_granularity_witness :
    (4 : Nat) ∈ addrs (search_in_buffer_group [100, 0, 0, 0, 200, 0, 0, 0] 0 0 8 4
      ⟨[fxDword 100, fxDword 200], SearchMode.ordered, 8⟩
      ((PageStatusBitmap.new 8 0).mark_all_success) []) ∧
    ((4 : Nat) ∈ addrs ([] : List ValuePair) ∨
     ∃ chk i,
       ((PageStatusBitmap.new 8 0).mark_all_success).is_page_success i = true ∧
       pageFloor 0 + i * PAGE_SIZE ≤ chk ∧
       chk < pageFloor 0 + (i + 1) * PAGE_SIZE ∧
       chk ≤ 4 + (⟨[fxDword 100, fxDword 200], SearchMode.ordered, 8⟩ :
         SearchQuery).range ∧
       (4 : Nat) < chk +
         max (sizesSum ⟨[fxDword 100, fxDword 200], SearchMode.ordered, 8⟩)
           (⟨[fxDword 100, fxDword 200], SearchMode.ordered, 8⟩ :
             SearchQuery).range) :=
  ⟨by decide,
   C2_amended_page_check_granularity [100, 0, 0, 0, 200, 0, 0, 0] 0 0 8 4
     ⟨[fxDword 100, fxDword 200], SearchMode.ordered, 8⟩
     ((PageStatusBitmap.new 8 0).mark_all_success) [] 4 (by decide)⟩

/-- C3 counterexample: a query with a FixedInt anchor and range 16 ≥ 8 = sum
of the value sizes, on an 8-byte buffer with every page successful.  The
anchor path truncates the validation window to the buffer end and matches,
emitting addresses 0 and 4; the fallback path requires a full untruncated
range-sized window (range_size >= query.range) and emits nothing. -/
theorem C3_counterexample :
    sizesSum ⟨[fxDword 100, fxDword 200], SearchMode.ordered, 16⟩ ≤ 16 ∧
    (findAnchor [fxDword 100, fxDword 200]).isSome = true ∧
    addrs (search_in_buffer_group [100, 0, 0, 0, 200, 0, 0, 0] 0 0 8 4
      ⟨[fxDword 100, fxDword 200], SearchMode.ordered, 16⟩
      ((PageStatusBitmap.new 8 0).mark_all_success) []) = [0, 4] ∧
    addrs (search_in_buffer_group_fallback [100, 0, 0, 0, 200, 0, 0, 0] 0 0 8 4
      ⟨[fxDword 100, fxDword 200], SearchMode.ordered, 16⟩
      ((PageStatusBitmap.new 8 0).mark_all_success) []) = [] :=
  ⟨by decide, by decide, by decide, by decide⟩

/-- C3 (amended): the anchor-first and fallback scanners insert the same set
of addresses under these conditions: the query is ordered, well formed, its
first value is a FixedInt (the anchor, with no earlier value), all values
share one size, the sum of the value sizes is at most the range, every page of
the bitmap covering the buffer reads successfully, and no candidate's window
is truncated (every aligned in-bounds occurrence of the anchor pattern has a
full range-sized window before the buffer and region ends).  Without the last
condition the two scanners differ (C3_counterexample); they also differ when
values precede the anchor or mix sizes, the two paths aligning windows
differently. -/
theorem C3_amended_anchor_equivalence (buffer : List Nat) (b rs_ re : Nat)
    (q : SearchQuery) (st : PageStatusBitmap) (init : List ValuePair)
    (bytes : List Nat) (ty : ValueType) (vs : List SearchValue)
    (hq : q.values = SearchValue.fixedInt bytes ty :: vs)
    (hw : q.wf) (hm : q.mode = SearchMode.ordered)
    (heq : ∀ u ∈ q.values, u.value_type.size = ty.size)
    (hsz : sizesSum q ≤ q.range)
    (hbase : st.base = b) (hlen : st.len = buffer.length) (hall : st.allSucc)
    (hnt : ∀ a, a < min (b + buffer.length) re → a % ty.size = 0 →
      alignUp (max b rs_) ty.size ≤ a →
      slice buffer (a - b) ty.size = bytes.take ty.size →
      a + q.range ≤ min (b + buffer.length) re) :
    ∀ x, x ∈ addrs (search_in_buffer_group buffer b rs_ re ty.size q st init) ↔
      x ∈ addrs (search_in_buffer_group_fallback buffer b rs_ re ty.size q st init) := by
  have hd0 : 0 < ty.size := ValueType.size_pos ty
  have hfa_find : findAnchor q.values = some (0, bytes.take ty.size) := by
    rw [hq]
    rfl
  have hb8 : bytes.length = 8 := by
    have hwv := hw (SearchValue.fixedInt bytes ty) (by rw [hq]; exact List.mem_cons_self _ _)
    exact hwv.1
  have hty8 : ty.size ≤ 8 := by cases ty <;> simp [ValueType.size]
  have hpatlen : (bytes.take ty.size).length = ty.size := by
    rw [List.length_take, hb8]
    omega
  have hds : ty.size ≤ q.range := by
    have hsum : sizesSum q =
        ty.size + (vs.map (fun u => u.value_type.size)).sum := by
      simp [sizesSum, hq, SearchValue.value_type]
    omega
  intro x
  by_cases hemp : st.get_success_page_ranges.isEmpty
  · have h1 : search_in_buffer_group buffer b rs_ re ty.size q st init = init := by
      simp only [search_in_buffer_group, hfa_find]
      rw [if_pos hemp]
    have h2 : search_in_buffer_group_fallback buffer b rs_ re ty.size q st init =
        init := by
      simp only [search_in_buffer_group_fallback]
      rw [if_pos hemp]
    rw [h1, h2]
  · have hne : st.get_success_page_ranges ≠ [] := by
      intro hc
      rw [hc] at hemp
      simp at hemp
    rw [addr_mem_scan buffer b rs_ re ty.size q st init x,
        addr_mem_fallback_scan buffer b rs_ re ty.size q st init x]
    simp only [hfa_find]
    constructor
    · rintro (hx0 | ⟨-, o, ho, p, hp, hpx⟩)
      · exact Or.inl hx0
      · right
        rcases mem_anchorCandidates ho with ⟨hocc, hmod, hfa_le, hlt_se⟩
        rw [hpatlen] at hmod
        rw [mem_occurrences_iff (by rw [hpatlen]; exact hd0)] at hocc
        rw [hpatlen] at hocc
        rcases hocc with ⟨hocc1, hocc2⟩
        have hnt_a : (b + o) + q.range ≤ min (b + buffer.length) re := by
          refine hnt (b + o) hlt_se hmod hfa_le ?_
          have hob : b + o - b = o := by omega
          rw [hob]
          exact hocc2
        rcases (mem_emitCandidate_ordered hm 0 buffer b rs_ re st o p).mp hp with
          ⟨-, -, -, -, -, offs, htm, hpe⟩
        have hs_eq : ordStart q 0 (b + o) = b + o := by
          simp [ordStart, presizeAt]
        rw [hs_eq] at htm hpe
        have hord : ordEnd q (b + o) (b + buffer.length) re - (b + o) = q.range := by
          unfold ordEnd
          omega
        have hob : b + o - b = o := by omega
        rw [hord, hob] at htm
        obtain ⟨r, hr, hwmem⟩ := walk_mem_of_allSucc hbase hlen hall hd0
          (Nat.min_le_left (b + buffer.length) re) (Nat.le_add_right b o) hfa_le
          hlt_se (Nat.dvd_of_mod_eq_zero hmod) (alignUp_dvd hd0)
        refine ⟨r, hr, b + o, hwmem, p, ?_, hpx⟩
        rw [mem_fallbackEmits_iff]
        have harg : min (b + o + q.range)
            (min (b + buffer.length) (min (b + buffer.length) re)) - (b + o) =
            q.range := by
          omega
        rw [harg]
        refine ⟨by omega, by omega, by omega, offs, ?_, hpe⟩
        unfold try_match_group_at_address
        rw [hm, hob]
        exact htm
    · rintro (hx0 | ⟨r, hr, t, ht, p, hp, hpx⟩)
      · exact Or.inl hx0
      · right
        rcases (mem_fallbackWalk_iff hd0).mp ht with ⟨-, ⟨k, hk⟩, -⟩
        have hdt : ty.size ∣ t := by
          rw [hk]
          refine Nat.dvd_add ?_ (dvd_mul_left _ _)
          split
          · exact alignUp_dvd hd0
          · exact alignUp_dvd hd0
        have halign : max b rs_ ≤ alignUp (max b rs_) ty.size := alignUp_ge hd0 _
        have hfat : alignUp (max b rs_) ty.size ≤ t := by
          rw [hk]
          have h0 : alignUp (max b rs_) ty.size ≤
              (if max (pageFloor b + r.1 * PAGE_SIZE) b ≤ alignUp (max b rs_) ty.size
               then alignUp (max b rs_) ty.size
               else alignUp (max (pageFloor b + r.1 * PAGE_SIZE) b) ty.size) := by
            split
            next h => exact le_refl _
            next h =>
              have h1 : alignUp (max b rs_) ty.size ≤
                  max (pageFloor b + r.1 * PAGE_SIZE) b := by omega
              exact le_trans h1 (alignUp_ge hd0 _)
          omega
        have hbt : b ≤ t := by omega
        rcases mem_fallbackEmits buffer b _ t p hp with
          ⟨hoff_lt, hrng, hfit, offs, htm, hpe⟩
        have htr2 : t + q.range ≤ min (b + buffer.length) re := by omega
        have hrs_eq : min (t + q.range)
            (min (b + buffer.length) (min (b + buffer.length) re)) - t = q.range := by
          omega
        rw [hrs_eq] at htm hfit
        unfold try_match_group_at_address at htm
        rw [hm] at htm
        have hg : GreedyOrd (slice buffer (t - b) q.range) q.values 0 offs :=
          (tmOrdered_some_iff _ _ _ _).mp htm
        rw [hq] at hg
        have hwlen : (slice buffer (t - b) q.range).length = q.range := by
          rw [slice_length]
          omega
        cases hg with
        | cons h1 h2 =>
            rename_i off0 rest
            obtain ⟨h1a, h1b, h1c, h1d, h1e⟩ := h1
            simp only [SearchValue.value_type] at h1b h1c h1d h2
            have hdvd0 : ty.size ∣ off0 := by simpa using h1b
            rw [hwlen] at h1c
            have hoslice : slice buffer ((t - b) + off0) ty.size =
                bytes.take ty.size := by
              have h0 : slice (slice buffer (t - b) q.range) off0 ty.size =
                  slice buffer ((t - b) + off0) ty.size := slice_slice h1c
              rw [h0] at h1d
              simpa [SearchValue.matched] using h1d
            have ha'_lt_se : t + off0 < min (b + buffer.length) re := by omega
            have hnt_a' : (t + off0) + q.range ≤ min (b + buffer.length) re := by
              refine hnt (t + off0) ha'_lt_se
                (Nat.mod_eq_zero_of_dvd (Nat.dvd_add hdt hdvd0)) (by omega) ?_
              have hAb : t + off0 - b = (t - b) + off0 := by omega
              rw [hAb]
              exact hoslice
            have h2' := h2.shift_down off0 (Nat.le_add_right off0 ty.size)
            have hcur : off0 + ty.size - off0 = ty.size := by omega
            rw [hcur, drop_slice] at h2'
            have hext : slice buffer ((t - b) + off0) q.range =
                slice buffer ((t - b) + off0) (q.range - off0) ++
                slice buffer ((t - b) + off0 + (q.range - off0))
                  (q.range - (q.range - off0)) := slice_split (Nat.sub_le _ _)
            have h2'' : GreedyOrd (slice buffer ((t - b) + off0) q.range) vs ty.size
                (rest.map (fun y => y - off0)) := by
              rw [hext]
              exact h2'.append _
            have hw'len : (slice buffer ((t - b) + off0) q.range).length = q.range := by
              rw [slice_length]
              omega
            have hhead : leastStride (SearchValue.fixedInt bytes ty)
                (slice buffer ((t - b) + off0) q.range) 0 0 := by
              refine ⟨le_refl 0, by simp, ?_, ?_, ?_⟩
              · simp only [SearchValue.value_type]
                rw [hw'len]
                omega
              · have h0 : slice (slice buffer ((t - b) + off0) q.range) 0 ty.size =
                    slice buffer ((t - b) + off0 + 0) ty.size := by
                  refine slice_slice ?_
                  omega
                simp only [SearchValue.value_type]
                rw [h0]
                simp only [SearchValue.matched, decide_eq_true_eq]
                exact hoslice
              · intro p' hp1 hp2 hp3
                exact absurd hp2 (Nat.not_lt_zero p')
            have hgw' : GreedyOrd (slice buffer ((t - b) + off0) q.range) q.values 0
                (0 :: rest.map (fun y => y - off0)) := by
              rw [hq]
              refine GreedyOrd.cons hhead ?_
              simp only [SearchValue.value_type]
              rw [Nat.zero_add]
              exact h2''
            have hcand : (t - b) + off0 ∈ anchorCandidates (bytes.take ty.size)
                buffer b (alignUp (max b rs_) ty.size)
                (min (b + buffer.length) re) := by
              rw [mem_anchorCandidates_iff]
              have hA : b + ((t - b) + off0) = t + off0 := by omega
              refine ⟨?_, ?_, ?_, ?_⟩
              · rw [mem_occurrences_iff (by rw [hpatlen]; exact hd0), hpatlen]
                exact ⟨by omega, hoslice⟩
              · rw [hpatlen, hA]
                exact Nat.mod_eq_zero_of_dvd (Nat.dvd_add hdt hdvd0)
              · rw [hA]
                omega
              · rw [hA]
                exact ha'_lt_se
            have hs_eq2 : ordStart q 0 (b + ((t - b) + off0)) = t + off0 := by
              unfold ordStart
              simp [presizeAt]
              omega
            have hord2 : ordEnd q (t + off0) (b + buffer.length) re - (t + off0) =
                q.range := by
              unfold ordEnd
              omega
            have hAb : t + off0 - b = (t - b) + off0 := by omega
            have hcomp : ∀ p' : ValuePair,
                p' ∈ emissionsOfMatch (t + off0) q (0 :: rest.map (fun y => y - off0)) →
                p' ∈ emitCandidate q 0 buffer b rs_ re st ((t - b) + off0) := by
              intro p' hpe'
              rw [mem_emitCandidate_ordered hm 0 buffer b rs_ re st ((t - b) + off0) p',
                hs_eq2, hord2, hAb]
              refine ⟨by omega, by omega, ?_, by omega, by omega,
                0 :: rest.map (fun y => y - off0), ?_, hpe'⟩
              · exact inSuccessRanges_of_allSucc hbase hlen hall (by omega) (by omega)
              · unfold try_match_ordered
                exact (tmOrdered_some_iff _ _ _ _).mpr hgw'
            rcases mem_emissionsOfMatch.mp hpe with ⟨⟨oi, vi⟩, hpo, rfl⟩
            rw [hq] at hpo
            simp only [List.zip_cons_cons] at hpo
            rcases List.mem_cons.mp hpo with heqp | htail
            · rw [Prod.mk.injEq] at heqp
              obtain ⟨h_oi, h_vi⟩ := heqp
              refine ⟨hne, (t - b) + off0, hcand,
                ⟨(t + off0) + 0, (SearchValue.fixedInt bytes ty).value_type⟩,
                hcomp _ ?_, ?_⟩
              · exact mem_emissionsOfMatch.mpr
                  ⟨(0, SearchValue.fixedInt bytes ty),
                   by rw [hq]; simp only [List.zip_cons_cons];
                      exact List.mem_cons_self _ _, rfl⟩
              · have hx_eq : x = t + oi := hpx.symm
                show (t + off0) + 0 = x
                omega
            · have hoi_ge : off0 + ty.size ≤ oi :=
                h2.lower_bound oi (List.of_mem_zip htail).1
              refine ⟨hne, (t - b) + off0, hcand,
                ⟨(t + off0) + (oi - off0), vi.value_type⟩, hcomp _ ?_, ?_⟩
              · refine mem_emissionsOfMatch.mpr ⟨(oi - off0, vi), ?_, rfl⟩
                rw [hq]
                simp only [List.zip_cons_cons]
                refine List.mem_cons_of_mem _ ?_
                rw [List.zip_map_left]
                exact List.mem_map_of_mem _ htail
              · have hx_eq : x = t + oi := hpx.symm
                show (t + off0) + (oi - off0) = x
                omega

theorem C3_amended_anchor_equivalence_witness :
    (0 : Nat) ∈ addrs (search_in_buffer_group
      [100, 0, 0, 0, 200, 0, 0, 0, 0, 0, 0, 0, 0, 0, 0, 0] 0 0 16 4
      ⟨[fxDword 100, fxDword 200], SearchMode.ordered, 8⟩
      ((PageStatusBitmap.new 16 0).mark_all_success) []) ∧
    ((0 : Nat) ∈ addrs (search_in_buffer_group
      [100, 0, 0, 0, 200, 0, 0, 0, 0, 0, 0, 0, 0, 0, 0, 0] 0 0 16 4
      ⟨[fxDword 100, fxDword 200], SearchMode.ordered, 8⟩
      ((PageStatusBitmap.new 16 0).mark_all_success) []) ↔
     (0 : Nat) ∈ addrs (search_in_buffer_group_fallback
      [100, 0, 0, 0, 200, 0, 0, 0, 0, 0, 0, 0, 0, 0, 0, 0] 0 0 16 4
      ⟨[fxDword 100, fxDword 200], SearchMode.ordered, 8⟩
      ((PageStatusBitmap.new 16 0).mark_all_success) [])) :=
  ⟨by decide,
   C3_amended_anchor_equivalence
     [100, 0, 0, 0, 200, 0, 0, 0, 0, 0, 0, 0, 0, 0, 0, 0] 0 0 16
     ⟨[fxDword 100, fxDword 200], SearchMode.ordered, 8⟩
     ((PageStatusBitmap.new 16 0).mark_all_success) []
     (dwordBytes 100) ValueType.dword [fxDword 200]
     rfl (by unfold SearchQuery.wf; decide) rfl (by decide) (by decide) rfl rfl
     (fun _ _ => rfl) (by decide) 0⟩

/-- C1 counterexample: an unordered three-dword query of range 16 over the
region [0, 48) with the values at addresses 0, 12 and 24.  Both chunk sizes 24
and 48 are at least the range, but the 24-byte run finds nothing — the
unordered window around the anchor at 12 spans up to range bytes on both
sides, while the overlap pass only carries range bytes backwards, so neither
chunk ever sees all three values — whereas the 48-byte run finds all three
addresses. -/
theorem C1_counterexample :
    (16 : Nat) ≤ 24 ∧ (16 : Nat) ≤ 48 ∧
    addrs (search_region_group
      (fun a => if a = 0 then 222 else if a = 12 then 111
                else if a = 24 then 233 else 0)
      (fun _ => true)
      ⟨[fxDword 111, fxDword 222, fxDword 233], SearchMode.unordered, 16⟩
      0 48 24) = [] ∧
    addrs (search_region_group
      (fun a => if a = 0 then 222 else if a = 12 then 111
                else if a = 24 then 233 else 0)
      (fun _ => true)
      ⟨[fxDword 111, fxDword 222, fxDword 233], SearchMode.unordered, 16⟩
      0 48 48) = [0, 12, 24] :=
  ⟨by decide, by decide, by decide, by decide⟩

/-- C1 (amended): chunk-boundary independence holds for Ordered queries led by
their FixedInt anchor when the sum of the value sizes is at most the range,
every page reads successfully, and both chunk sizes are at least the range:
the two runs then produce the same address set, each being the set of greedy
matches of aligned anchor occurrences on windows clipped only at the region
end.  In Unordered mode the result set is not chunk-size invariant even for
chunk sizes at least the range, because unordered windows extend range bytes
on both sides of the anchor while the overlap pass carries only range bytes
(C1_counterexample). -/
theorem C1_amended_chunk_independence (mem : Nat → Nat) (pageOk : Nat → Bool)
    (q : SearchQuery) (bytes : List Nat) (ty : ValueType) (vs : List SearchValue)
    (start endA c1 c2 : Nat)
    (hq : q.values = SearchValue.fixedInt bytes ty :: vs)
    (hw : q.wf) (hm : q.mode = SearchMode.ordered)
    (hsz : sizesSum q ≤ q.range) (hall : ∀ p, pageOk p = true)
    (hc1 : q.range ≤ c1) (hc2 : q.range ≤ c2) :
    ∀ x, x ∈ addrs (search_region_group mem pageOk q start endA c1) ↔
      x ∈ addrs (search_region_group mem pageOk q start endA c2) :=
  fun x =>
    (run_iff_global mem pageOk q bytes ty vs start endA c1 hq hw hm hsz hall
      hc1 x).trans
    (run_iff_global mem pageOk q bytes ty vs start endA c2 hq hw hm hsz hall
      hc2 x).symm

theorem C1_amended_chunk_independence_witness :
    (0 : Nat) ∈ addrs (search_region_group
      (fun a => if a = 0 then 100 else if a = 4 then 200 else 0)
      (fun _ => true)
      ⟨[fxDword 100, fxDword 200], SearchMode.ordered, 8⟩ 0 48 8) ∧
    ((0 : Nat) ∈ addrs (search_region_group
      (fun a => if a = 0 then 100 else if a = 4 then 200 else 0)
      (fun _ => true)
      ⟨[fxDword 100, fxDword 200], SearchMode.ordered, 8⟩ 0 48 8) ↔
     (0 : Nat) ∈ addrs (search_region_group
      (fun a => if a = 0 then 100 else if a = 4 then 200 else 0)
      (fun _ => true)
      ⟨[fxDword 100, fxDword 200], SearchMode.ordered, 8⟩ 0 48 16)) :=
  ⟨by decide,
   C1_amended_chunk_independence
     (fun a => if a = 0 then 100 else if a = 4 then 200 else 0)
     (fun _ => true)
     ⟨[fxDword 100, fxDword 200], SearchMode.ordered, 8⟩
     (dwordBytes 100) ValueType.dword [fxDword 200] 0 48 8 16
     rfl (by unfold SearchQuery.wf; decide) rfl (by decide) (fun _ => rfl)
     (by decide) (by decide) 0⟩

end MX
